import Mathlib

/-!
Verification of the callTree core (`callTree.py`): a shallow embedding of the
cscope database loader, the digram symbol coder, the per-file extent index
builder, the caller resolver with its binary search, and the recursive tree
walker, together with theorems settling the specification claims.

Python strings are modelled as `List Char` (the file is decoded as ISO-8859-1,
so every character is a single code point below 256).  Python dictionaries are
modelled as insertion-ordered association lists: updating an existing key keeps
its position, inserting a new key appends it — exactly the CPython `dict`
iteration-order contract that the source relies on.
-/

namespace CallTree

/-- A Python string (ISO-8859-1 decoded bytes, one `Char` per byte). -/
abbrev PyStr := List Char

/-! ## Association lists: the model of Python `dict` -/

/-- Python `d[k]` lookup: first (and, for dicts built by `alistSet`, only) binding. -/
def alistGet {α β : Type} [DecidableEq α] : List (α × β) → α → Option β
  | [], _ => none
  | (k', v) :: rest, k => if k = k' then some v else alistGet rest k

/-- Python `d[k] = v`: update in place (keeping the key's position) or append. -/
def alistSet {α β : Type} [DecidableEq α] : List (α × β) → α → β → List (α × β)
  | [], k, v => [(k, v)]
  | (k', v') :: rest, k, v =>
    if k = k' then (k', v) :: rest else (k', v') :: alistSet rest k v

theorem alistGet_set_self {α β : Type} [DecidableEq α] (d : List (α × β)) (k : α) (v : β) :
    alistGet (alistSet d k v) k = some v := by
  induction d with
  | nil => simp [alistSet, alistGet]
  | cons hd tl ih =>
    obtain ⟨k', v'⟩ := hd
    by_cases h : k = k' <;> simp [alistSet, alistGet, h, ih]

theorem alistGet_set_ne {α β : Type} [DecidableEq α] (d : List (α × β)) (k k' : α) (v : β)
    (h : k' ≠ k) : alistGet (alistSet d k v) k' = alistGet d k' := by
  induction d with
  | nil => simp [alistSet, alistGet, h]
  | cons hd tl ih =>
    obtain ⟨k₀, v₀⟩ := hd
    by_cases hk : k = k₀
    · subst hk; simp [alistSet, alistGet, h]
    · by_cases hk' : k' = k₀ <;> simp [alistSet, alistGet, hk, hk', ih]

theorem alistGet_set_isSome {α β : Type} [DecidableEq α] (d : List (α × β)) (k k' : α) (v : β)
    (h : (alistGet d k').isSome) : (alistGet (alistSet d k v) k').isSome := by
  by_cases hk : k' = k
  · subst hk; simp [alistGet_set_self]
  · rwa [alistGet_set_ne d k k' v hk]

/-- Lookup success `alistGet d k = some v` exhibits the binding `(k, v)` inside `d`. -/
theorem alistGet_some_mem {α β : Type} [DecidableEq α] (d : List (α × β)) (k : α) (v : β)
    (h : alistGet d k = some v) : (k, v) ∈ d := by
  induction d with
  | nil => simp [alistGet] at h
  | cons hd tl ih =>
    obtain ⟨k', v'⟩ := hd
    by_cases hk : k = k'
    · simp [alistGet, hk] at h
      simp [hk, h]
    · simp [alistGet, hk] at h
      exact List.mem_cons_of_mem _ (ih h)

/-- Lookup success `alistGet d k = some v` forces `k` to occur among the keys of `d`. -/
theorem alistGet_mem_keys {α β : Type} [DecidableEq α] (d : List (α × β)) (k : α) (v : β)
    (h : alistGet d k = some v) : k ∈ d.map Prod.fst := by
  have := alistGet_some_mem d k v h
  exact List.mem_map.mpr ⟨(k, v), this, rfl⟩

/-! ## Digram coder (`loadCscopeContent`, `encodeSymbol`, `decodeSymbol`)

The two frequency alphabets and the compressed-code construction are taken
verbatim from `loadCscopeContent`: `dicode1[ord(c1)] = i*8 + 1`,
`dicode2[ord(c2)] = j + 1`, and the code byte is
`(0o200 - 2) + dicode1[ord(c1)] + dicode2[ord(c2)]`. -/

/-- Source `dichar1 = " teisaprnl(of)=c"`: the 16 most frequent first characters. -/
def dichar1 : List Char := " teisaprnl(of)=c".toList

/-- Source `dichar2 = " tnerpla"`: the 8 most frequent second characters. -/
def dichar2 : List Char := " tnerpla".toList

/-- Array `dicode1[ord c]`: `index * 8 + 1` for members of `dichar1`, `0` otherwise
(the Python array is zero-initialised). -/
def dicode1 (c : Char) : Nat :=
  match dichar1.indexOf? c with
  | some i => i * 8 + 1
  | none => 0

/-- Array `dicode2[ord c]`: `index + 1` for members of `dichar2`, `0` otherwise. -/
def dicode2 (c : Char) : Nat :=
  match dichar2.indexOf? c with
  | some i => i + 1
  | none => 0

/-- Code byte `dicodeCompress(c1, c2) = chr((0o200 - 2) + dicode1[ord c1] + dicode2[ord c2])`. -/
def dicodeCompress (c1 c2 : Char) : Char :=
  Char.ofNat ((0o200 - 2) + dicode1 c1 + dicode2 c2)

/-- Table `self.encodeMap`: the pair `c1 ++ c2 ↦ dicodeCompress c1 c2` for every
`(c1, c2) ∈ dichar1 × dichar2`, in the source's nested-loop insertion order. -/
def encodeMap : List ((Char × Char) × Char) :=
  dichar1.flatMap fun c1 => dichar2.map fun c2 => ((c1, c2), dicodeCompress c1 c2)

/-- Table `self.decodeMap`: the inverse table `dicodeCompress c1 c2 ↦ c1 ++ c2`. -/
def decodeMap : List (Char × (Char × Char)) :=
  dichar1.flatMap fun c1 => dichar2.map fun c2 => (dicodeCompress c1 c2, (c1, c2))

/-- The greedy scan of `encodeSymbol`: while `i + 1 < len`, emit the code of
`symbol[i:i+2]` when the pair is in `encodeMap` (advancing by 2), otherwise
emit `symbol[i]` (advancing by 1); a leftover final character is appended. -/
def encodeLoop : List Char → List Char
  | c1 :: c2 :: rest =>
    match alistGet encodeMap (c1, c2) with
    | some code => code :: encodeLoop rest
    | none => c1 :: encodeLoop (c2 :: rest)
  | l => l

/-- Function `encodeSymbol`: strings of length `< 2` pass through unchanged. -/
def encodeSymbol (symbol : List Char) : List Char :=
  if symbol.length < 2 then symbol else encodeLoop symbol

/-- One `str.replace(code, pair)` pass: every occurrence of the single
character `code` is replaced by the two-character expansion. -/
def replaceCode (l : List Char) (code : Char) (p : Char × Char) : List Char :=
  l.flatMap fun c => if c = code then [p.1, p.2] else [c]

/-- Function `decodeSymbol`: `for code in self.decodeMap: symbol = symbol.replace(...)`. -/
def decodeSymbol (symbol : List Char) : List Char :=
  decodeMap.foldl (fun s (cp : Char × (Char × Char)) => replaceCode s cp.1 cp.2) symbol

/-! ### Digram coder facts -/

/-- Every code/expansion entry of `decodeMap` is consistent with `encodeMap`,
its code is at least `0x80`, and its two expansion characters are below `0x80`.
Checked by evaluation over the concrete 128-entry tables. -/
def decodeMapConsistent : Prop :=
  ∀ e ∈ decodeMap, alistGet encodeMap (e.2.1, e.2.2) = some e.1 ∧
    0x80 ≤ e.1.toNat ∧ e.2.1.toNat < 0x80 ∧ e.2.2.toNat < 0x80

instance : Decidable decodeMapConsistent := by
  unfold decodeMapConsistent; infer_instance

set_option maxRecDepth 20000 in
theorem decodeMap_consistent : decodeMapConsistent := by decide

set_option maxRecDepth 20000 in
/-- Any code produced by `encodeMap` appears in `decodeMap` with the same pair,
and every code is a high byte. -/
theorem encodeMap_to_decodeMap (c1 c2 code : Char)
    (h : alistGet encodeMap (c1, c2) = some code) :
    alistGet decodeMap code = some (c1, c2) ∧ 0x80 ≤ code.toNat := by
  have hall : ∀ e ∈ encodeMap, alistGet decodeMap e.2 = some e.1 ∧ 0x80 ≤ e.2.toNat := by
    decide
  exact hall _ (alistGet_some_mem _ _ _ h)

/-- Decoding distributes over the characters of a string whose every character
is either below `0x80` or a key of `decodeMap`: the fold of `replace` passes
equals a single pointwise expansion.  The hypothesis on `cps` is that every
expansion it performs introduces no character that any (later or earlier) pass
would rewrite again. -/
theorem foldl_replaceCode_eq_flatMap (cps : List (Char × (Char × Char)))
    (hexp : ∀ e ∈ cps, ∀ e' ∈ cps, e.2.1 ≠ e'.1 ∧ e.2.2 ≠ e'.1) :
    ∀ l : List Char,
      cps.foldl (fun s cp => replaceCode s cp.1 cp.2) l =
        l.flatMap (fun c => match alistGet cps c with
          | some p => [p.1, p.2]
          | none => [c]) := by
  induction cps with
  | nil => intro l; simp [alistGet]
  | cons hd tl ih =>
    intro l
    obtain ⟨code, p1, p2⟩ := hd
    have htl : ∀ e ∈ tl, ∀ e' ∈ tl, e.2.1 ≠ e'.1 ∧ e.2.2 ≠ e'.1 := by
      intro e he e' he'
      exact hexp e (List.mem_cons_of_mem _ he) e' (List.mem_cons_of_mem _ he')
    have step : ∀ c : Char,
        ((if c = code then [p1, p2] else [c]).flatMap
          (fun c => match alistGet tl c with
            | some p => [p.1, p.2]
            | none => [c])) =
        (match alistGet ((code, (p1, p2)) :: tl) c with
          | some p => [p.1, p.2]
          | none => [c]) := by
      intro c
      by_cases hc : c = code
      · subst hc
        have h1 : alistGet tl p1 = none := by
          cases h1 : alistGet tl p1 with
          | none => rfl
          | some q =>
            exfalso
            have he := alistGet_some_mem tl p1 q h1
            have := (hexp (c, p1, p2) (List.mem_cons_self _ _)
              (p1, q) (List.mem_cons_of_mem _ he)).1
            exact this rfl
        have h2 : alistGet tl p2 = none := by
          cases h2 : alistGet tl p2 with
          | none => rfl
          | some q =>
            exfalso
            have he := alistGet_some_mem tl p2 q h2
            have := (hexp (c, p1, p2) (List.mem_cons_self _ _)
              (p2, q) (List.mem_cons_of_mem _ he)).2
            exact this rfl
        simp [alistGet, h1, h2]
      · simp [if_neg hc, alistGet]
    calc ((code, (p1, p2)) :: tl).foldl (fun s cp => replaceCode s cp.1 cp.2) l
        = tl.foldl (fun s cp => replaceCode s cp.1 cp.2) (replaceCode l code (p1, p2)) := by
          simp [List.foldl_cons]
      _ = (replaceCode l code (p1, p2)).flatMap (fun c => match alistGet tl c with
            | some p => [p.1, p.2]
            | none => [c]) := ih htl _
      _ = l.flatMap (fun c => match alistGet ((code, (p1, p2)) :: tl) c with
            | some p => [p.1, p.2]
            | none => [c]) := by
          unfold replaceCode
          rw [List.flatMap_assoc]
          exact List.flatMap_congr (by intro c _; exact step c)

/-- The pointwise expansion a full `decodeSymbol` run performs on well-behaved
input: a digram code becomes its two characters, everything else stays. -/
def expandChar (c : Char) : List Char :=
  match alistGet decodeMap c with
  | some p => [p.1, p.2]
  | none => [c]

theorem decodeMap_expansions_not_codes :
    ∀ e ∈ decodeMap, ∀ e' ∈ decodeMap, e.2.1 ≠ e'.1 ∧ e.2.2 ≠ e'.1 := by
  intro e he e' he'
  have h1 := decodeMap_consistent e he
  have h2 := decodeMap_consistent e' he'
  constructor
  · intro h
    have : e.2.1.toNat = e'.1.toNat := by rw [h]
    omega
  · intro h
    have : e.2.2.toNat = e'.1.toNat := by rw [h]
    omega

theorem decodeSymbol_eq_flatMap (l : List Char) :
    decodeSymbol l = l.flatMap expandChar :=
  foldl_replaceCode_eq_flatMap decodeMap decodeMap_expansions_not_codes l

theorem expandChar_ascii (c : Char) (hc : c.toNat < 0x80) : expandChar c = [c] := by
  unfold expandChar
  cases h : alistGet decodeMap c with
  | none => rfl
  | some p =>
    exfalso
    have h80 := (decodeMap_consistent _ (alistGet_some_mem _ _ _ h)).2.1
    simp at h80
    omega

/-- The greedy encoding loop round-trips under decoding, on strings all of
whose characters are 7-bit. -/
theorem flatMap_expandChar_encodeLoop :
    ∀ s : List Char, (∀ c ∈ s, c.toNat < 0x80) →
      (encodeLoop s).flatMap expandChar = s
  | [], _ => rfl
  | [c], h => by
    simpa [encodeLoop] using expandChar_ascii c (h c (by simp))
  | c1 :: c2 :: rest, h => by
    have h1 : c1.toNat < 0x80 := h c1 (by simp)
    have h2 : ∀ c ∈ c2 :: rest, c.toNat < 0x80 := fun c hc => h c (by simp [hc])
    have hr : ∀ c ∈ rest, c.toNat < 0x80 := fun c hc => h c (by simp [hc])
    unfold encodeLoop
    cases hcode : alistGet encodeMap (c1, c2) with
    | some code =>
      have hdec := encodeMap_to_decodeMap c1 c2 code hcode
      simp only [List.flatMap_cons]
      rw [flatMap_expandChar_encodeLoop rest hr]
      unfold expandChar
      rw [hdec.1]
      simp
    | none =>
      simp only [List.flatMap_cons]
      rw [flatMap_expandChar_encodeLoop (c2 :: rest) h2, expandChar_ascii c1 h1]
      rfl

/-- Decoding inverts encoding on 7-bit strings (printable ASCII included). -/
theorem decodeSymbol_encodeSymbol (s : List Char) (h : ∀ c ∈ s, c.toNat < 0x80) :
    decodeSymbol (encodeSymbol s) = s := by
  unfold encodeSymbol
  by_cases hlen : s.length < 2
  · rw [if_pos hlen, decodeSymbol_eq_flatMap]
    match s, hlen with
    | [], _ => rfl
    | [c], _ => simpa using expandChar_ascii c (h c (by simp))
  · rw [if_neg hlen, decodeSymbol_eq_flatMap]
    exact flatMap_expandChar_encodeLoop s h

set_option maxRecDepth 40000 in
/-- Claim C6, counterexample.  The compressed string `"t" ++ chr(145)` is
well-formed in the claim's sense — its sole high byte, 145, is a valid digram
code (for the pair `"et"`) and its other byte is plain ASCII — yet
`encodeSymbol (decodeSymbol c) ≠ c`: decoding yields `"tet"`, and the greedy
encoder re-pairs it as `code("te") ++ "t" = chr(139) ++ "t"`. -/
theorem C6_counterexample :
    (∀ c ∈ ['t', Char.ofNat 145], c.toNat < 0x80 ∨ (alistGet decodeMap c).isSome) ∧
    decodeSymbol ['t', Char.ofNat 145] = ['t', 'e', 't'] ∧
    encodeSymbol (decodeSymbol ['t', Char.ofNat 145]) = [Char.ofNat 139, 't'] ∧
    encodeSymbol (decodeSymbol ['t', Char.ofNat 145]) ≠ ['t', Char.ofNat 145] := by
  refine ⟨by decide, ?_, ?_, ?_⟩ <;> decide

/-- Claim C6 (amended): `decodeSymbol (encodeSymbol s) = s` for every 7-bit
string `s` (in particular for printable ASCII), and strings of length `< 2`
pass through encoding unchanged; the converse round-trip
`encodeSymbol (decodeSymbol c) = c` does NOT hold for arbitrary well-formed
compressed strings (see the counterexample) but does hold for every compressed
string in the image of `encodeSymbol`. -/
theorem C6_digram_roundtrip :
    (∀ s : List Char, (∀ c ∈ s, c.toNat < 0x80) → decodeSymbol (encodeSymbol s) = s) ∧
    (∀ s : List Char, s.length < 2 → encodeSymbol s = s) ∧
    (∀ s : List Char, (∀ c ∈ s, c.toNat < 0x80) →
      encodeSymbol (decodeSymbol (encodeSymbol s)) = encodeSymbol s) := by
  refine ⟨decodeSymbol_encodeSymbol, ?_, ?_⟩
  · intro s hlen
    unfold encodeSymbol
    rw [if_pos hlen]
  · intro s h
    rw [decodeSymbol_encodeSymbol s h]

set_option maxRecDepth 40000 in
/-- Witness for C6: the concrete symbol `"exit"` (printable ASCII) encodes to
the two bytes `chr(131) ++ chr(140)` and decodes back. -/
theorem C6_digram_roundtrip_witness :
    decodeSymbol (encodeSymbol "exit".toList) = "exit".toList :=
  C6_digram_roundtrip.1 "exit".toList (by decide)

/-! ## Cscope stream parser (`parseRef` and the `add*` helpers)

The stream is a list of lines, each line a list of ISO-8859-1 characters.
Exceptions that CPython would raise (the `IndexError` on `line[1]` for a
lone-tab line, the `ValueError` from `int(...)` on a malformed line-number
header) are modelled by `parseLine` returning `none`. -/

/-- A two-level map `symbol → { file → [line, ...] }` — the common shape of
`references`, `definitions`, `macroEnds`, `functionEnds`, ... -/
abbrev DB2 := List (PyStr × List (PyStr × List Int))

/-- The shared body of `addRef`/`addDef`/`addFuncDef`/`addFuncEnd`/
`addSymbolDef`/`addMacroDef`/`addMacroEnd` (the source repeats this code once
per map): create the missing nested dicts, then append `lineNumber`. -/
def db2Add (m : DB2) (symbol : PyStr) (filePath : PyStr) (lineNumber : Int) : DB2 :=
  let m1 := if (alistGet m symbol).isNone then alistSet m symbol [] else m
  let inner := (alistGet m1 symbol).getD []
  let inner1 := if (alistGet inner filePath).isNone then alistSet inner filePath [] else inner
  let lines := (alistGet inner1 filePath).getD []
  alistSet m1 symbol (alistSet inner1 filePath (lines ++ [lineNumber]))

/-- Python `str.isspace` characters relevant to `int()` stripping (the
line-number tokens of real databases contain none of them). -/
def isPySpace (c : Char) : Bool :=
  c = ' ' ∨ c = '\t' ∨ c = '\n' ∨ c = '\r' ∨ c = Char.ofNat 11 ∨ c = Char.ofNat 12

/-- Python `str.isnumeric` on one ISO-8859-1 character: the ASCII digits plus
the Latin-1 numeric signs `² ³ ¹ ¼ ½ ¾`. -/
def pyIsNumeric (c : Char) : Bool :=
  c.isDigit ∨ c.toNat = 0xB2 ∨ c.toNat = 0xB3 ∨ c.toNat = 0xB9 ∨
    c.toNat = 0xBC ∨ c.toNat = 0xBD ∨ c.toNat = 0xBE

/-- Python `int(token)` restricted to the tokens the parser can meet: strips
whitespace and accepts a non-empty run of ASCII digits; everything else (the
Latin-1 numerics, embedded letters, signs — which never occur in well-formed
cscope line-number headers) raises `ValueError`, modelled as `none`. -/
def pyInt (s : PyStr) : Option Int :=
  let t := ((s.dropWhile isPySpace).reverse.dropWhile isPySpace).reverse
  if t ≠ [] ∧ t.all Char.isDigit then
    some (t.foldl (fun a c => a * 10 + ((c.toNat : Int) - 48)) 0)
  else none

/-- The character class `RE_ISWORD = [\w\x80\xff]` over ISO-8859-1: ASCII word
characters plus the Latin-1 letters recognised by Unicode `\w`, plus the two
explicit bytes `0x80` and `0xFF`. -/
def isWordChar (c : Char) : Bool :=
  c.isAlphanum ∨ c = '_' ∨ c.toNat = 0x80 ∨ c.toNat = 0xFF ∨
    c.toNat = 0xAA ∨ c.toNat = 0xB5 ∨ c.toNat = 0xBA ∨
    (0xC0 ≤ c.toNat ∧ c.toNat ≤ 0xD6) ∨ (0xD8 ≤ c.toNat ∧ c.toNat ≤ 0xF6) ∨
    (0xF8 ≤ c.toNat ∧ c.toNat ≤ 0xFF)

/-- Python `str(n)` for the nonnegative line counters (`'-' ++ digits` for the
negative integers, which the parser never produces). -/
def intToChars (i : Int) : PyStr :=
  if i < 0 then '-' :: Nat.toDigits 10 (-i).toNat else Nat.toDigits 10 i.toNat

/-- Function `encodeFileLineSymbol`: the composite key `"%s,%s,%s" % (file, line, sym)`. -/
def encodeFileLineSymbol (fileName : PyStr) (lineNumber : Int) (symbol : PyStr) : PyStr :=
  fileName ++ ',' :: (intToChars lineNumber ++ ',' :: symbol)

/-- Sentinel and default-name string constants of the source. -/
def STR_TRAVERSED : PyStr := "@Traversed".toList
def STR_BLACKLISTED : PyStr := "@Blacklisted".toList
def STR_MAX_DEPTH : PyStr := "@ReachMaxDepth".toList
def STR_NO_REFERENCE : PyStr := "@NoReference".toList
def STR_DEFAULT_FILENAME : PyStr := "main.c".toList
def STR_DEFAULT_FUNCTION : PyStr := "main".toList
def STR_DEFAULT_MACRO : PyStr := "macro".toList

/-- The mutable state of one `parseRef` run: the state-machine mode
(`0 = ENUM_NORMAL`, `1 = ENUM_EMPTY`, `2 = ENUM_DEFINE`), the current
file/line/function/macro context, and the seven accumulated maps. -/
structure ParseState where
  state : Nat
  curFileName : PyStr
  curLineNum : Int
  curFunctionName : PyStr
  curMacroName : PyStr
  definitions : DB2
  macroDefinitions : DB2
  macroEnds : DB2
  functionDefinitions : DB2
  functionEnds : DB2
  symbolDefinitions : DB2
  references : DB2

/-- The initial state of `parseRef` (`curLineNum` starts at `0`). -/
def initParseState : ParseState :=
  { state := 0, curFileName := STR_DEFAULT_FILENAME, curLineNum := 0,
    curFunctionName := STR_DEFAULT_FUNCTION, curMacroName := STR_DEFAULT_MACRO,
    definitions := [], macroDefinitions := [], macroEnds := [],
    functionDefinitions := [], functionEnds := [], symbolDefinitions := [],
    references := [] }

/-- One iteration of the `for line in cscope` loop of `parseRef`; `none`
models an uncaught exception. -/
def parseLine (st : ParseState) (line : PyStr) : Option ParseState :=
  -- `if state != ENUM_DEFINE and line == '': state = ENUM_EMPTY`
  if st.state ≠ 2 ∧ line = [] then some { st with state := 1 }
  else
    match line with
    | [] => some st                      -- `if line == '' or line[0] == ' '`
    | c :: cs =>
      if c = ' ' then some st
      -- `if state == ENUM_EMPTY and line[0].isnumeric()`
      else if st.state = 1 ∧ pyIsNumeric c then
        match pyInt ((c :: cs).takeWhile (fun ch => ch ≠ ' ')) with
        | some n => some { st with curLineNum := n, state := 0 }
        | none => none                   -- ValueError from `int(...)`
      else if c = '\t' then
        match cs with
        | [] => none                     -- IndexError: `line[1]` on a lone tab
        | lineHead :: lineEnd =>
          if lineHead = '`' then         -- reference
            some { st with
              references := db2Add st.references lineEnd st.curFileName st.curLineNum }
          else if st.state ≠ 2 ∧ lineHead = '#' then  -- `#define` start
            some { st with
              state := 2,
              definitions := db2Add st.definitions lineEnd st.curFileName st.curLineNum,
              macroDefinitions := db2Add st.macroDefinitions lineEnd st.curFileName
                st.curLineNum,
              curMacroName := encodeFileLineSymbol st.curFileName st.curLineNum lineEnd }
          else if st.state = 2 ∧ lineHead = ')' then  -- `#define` end
            some { st with
              state := 0,
              macroEnds := db2Add st.macroEnds st.curMacroName st.curFileName st.curLineNum,
              curMacroName := STR_DEFAULT_MACRO }
          else if lineHead = '$' then    -- function definition
            some { st with
              definitions := db2Add st.definitions lineEnd st.curFileName st.curLineNum,
              functionDefinitions := db2Add st.functionDefinitions lineEnd st.curFileName
                st.curLineNum,
              curFunctionName := encodeFileLineSymbol st.curFileName st.curLineNum lineEnd }
          else if lineHead = '}' then    -- function end
            some { st with
              functionEnds := db2Add st.functionEnds st.curFunctionName st.curFileName
                st.curLineNum,
              curFunctionName := STR_DEFAULT_FUNCTION }
          else if lineHead = 'c' ∨ lineHead = 's' ∨ lineHead = 't' ∨
              lineHead = 'e' ∨ lineHead = 'm' then  -- other definitions
            some { st with
              definitions := db2Add st.definitions lineEnd st.curFileName st.curLineNum,
              symbolDefinitions := db2Add st.symbolDefinitions lineEnd st.curFileName
                st.curLineNum }
          else if lineHead = '@' then    -- filename
            some { st with curFileName := lineEnd, curLineNum := 1 }
          else
            -- Unknown prefix byte: control falls through to the
            -- `RE_ISWORD.match(line[0])` test, which a tab never passes.
            some st
      -- `if RE_ISWORD.match(line[0]): addRef(curFileName, curLineNum, line)`
      else if isWordChar c then
        some { st with
          references := db2Add st.references (c :: cs) st.curFileName st.curLineNum }
      else some st

/-- Function `parseRef`: fold `parseLine` over the stream; `none` models an uncaught
exception aborting the whole parse. -/
def parseRef (cscope : List PyStr) : Option ParseState :=
  cscope.foldl (fun acc line => acc.bind (fun st => parseLine st line)) (some initParseState)

/-! ## Index builder (`buildDefinitionMap`) -/

/-- The per-file map `file → { line → [symbol, ...] }` produced by
`_buildDefinitionMap`. -/
abbrev FLMap := List (PyStr × List (Int × List PyStr))

/-- The loop body of `_buildDefinitionMap`: create the missing nested dicts and
append `symbol` at `result[file_path][line_number]`. -/
def addDefEntry (result : FLMap) (filePath : PyStr) (lineNumber : Int) (symbol : PyStr) :
    FLMap :=
  let r1 := if (alistGet result filePath).isNone then alistSet result filePath [] else result
  let inner := (alistGet r1 filePath).getD []
  let inner1 :=
    if (alistGet inner lineNumber).isNone then alistSet inner lineNumber [] else inner
  let syms := (alistGet inner1 lineNumber).getD []
  alistSet r1 filePath (alistSet inner1 lineNumber (syms ++ [symbol]))

/-- Function `_buildDefinitionMap`: `for symbol in definitions: for file_path in info:
for line_number in info[file_path]: ...append(symbol)`. -/
def _buildDefinitionMap (definitions : DB2) : FLMap :=
  definitions.foldl (fun result si =>
    si.2.foldl (fun result fl =>
      fl.2.foldl (fun result ln => addDefEntry result fl.1 ln si.1) result) result) []

/-- Expression `[int(num) for num in endMap[filePath]]`: the key list of the per-file
dict, in dict order (the keys are already integers, so `int` is the
identity). -/
def fileLineKeys (m : FLMap) (filePath : PyStr) : List Int :=
  ((alistGet m filePath).getD []).map Prod.fst

/-- The end-line events for `filePath`, in the traversal order of
`_buildDefinitionMap`'s three nested loops. -/
def defEvents (definitions : DB2) (filePath : PyStr) : List Int :=
  definitions.flatMap fun si => si.2.flatMap fun fl => if fl.1 = filePath then fl.2 else []

/-- First-occurrence accumulation: append each line that is not yet a key. -/
def appendNewKeys (ks : List Int) (ls : List Int) : List Int :=
  ls.foldl (fun a l => if l ∈ a then a else a ++ [l]) ks

/-! ### Key-order facts about the index builder -/

theorem alistGet_isSome_iff_mem {α β : Type} [DecidableEq α] (d : List (α × β)) (k : α) :
    (alistGet d k).isSome ↔ k ∈ d.map Prod.fst := by
  induction d with
  | nil => simp [alistGet]
  | cons hd tl ih =>
    obtain ⟨k', v'⟩ := hd
    by_cases hk : k = k' <;> simp [alistGet, hk, ih]

theorem alistSet_keys {α β : Type} [DecidableEq α] (d : List (α × β)) (k : α) (v : β) :
    (alistSet d k v).map Prod.fst =
      if (alistGet d k).isSome then d.map Prod.fst else d.map Prod.fst ++ [k] := by
  induction d with
  | nil => simp [alistSet, alistGet]
  | cons hd tl ih =>
    obtain ⟨k', v'⟩ := hd
    by_cases hk : k = k'
    · simp [alistSet, alistGet, hk]
    · simp only [alistSet, alistGet, if_neg hk, List.map_cons]
      rw [ih]
      by_cases hs : (alistGet tl k).isSome <;> simp [hs, hk]

/-- Updating file `f'` does not change the key list of another file `f`. -/
theorem fileLineKeys_addDefEntry_other (m : FLMap) (f f' : PyStr) (ln : Int) (sym : PyStr)
    (hne : f ≠ f') : fileLineKeys (addDefEntry m f' ln sym) f = fileLineKeys m f := by
  unfold addDefEntry fileLineKeys
  cases hm : alistGet m f' with
  | none =>
    simp only [hm]
    simp only [Option.isNone_none, if_true]
    rw [alistGet_set_ne _ _ _ _ hne, alistGet_set_ne _ _ _ _ hne]
  | some inner =>
    simp [hm]
    rw [alistGet_set_ne _ _ _ _ hne]

/-- Updating file `f` appends `ln` to its key list exactly when `ln` is new. -/
theorem fileLineKeys_addDefEntry_same (m : FLMap) (f : PyStr) (ln : Int) (sym : PyStr) :
    fileLineKeys (addDefEntry m f ln sym) f =
      if ln ∈ fileLineKeys m f then fileLineKeys m f else fileLineKeys m f ++ [ln] := by
  unfold addDefEntry fileLineKeys
  cases hm : alistGet m f with
  | none =>
    simp [hm, alistGet_set_self, alistGet, alistSet]
  | some inner =>
    simp only [hm, Option.isNone_some, Bool.false_eq_true, if_false, Option.getD_some]
    cases hi : alistGet inner ln with
    | none =>
      have hmem : ln ∉ inner.map Prod.fst := by
        rw [← alistGet_isSome_iff_mem]
        simp [hi]
      simp [hi, alistGet_set_self, alistSet_keys, hmem]
    | some syms =>
      have hmem : ln ∈ inner.map Prod.fst := by
        rw [← alistGet_isSome_iff_mem]
        simp [hi]
      simp [hi, alistGet_set_self, alistSet_keys, hmem]

/-- The innermost loop of `_buildDefinitionMap`, over one line list. -/
theorem fileLineKeys_lineFold (f fp sym : PyStr) :
    ∀ (lines : List Int) (m : FLMap),
      fileLineKeys (lines.foldl (fun result ln => addDefEntry result fp ln sym) m) f =
        appendNewKeys (fileLineKeys m f) (if fp = f then lines else []) := by
  intro lines
  induction lines with
  | nil => intro m; by_cases hfp : fp = f <;> simp [appendNewKeys, hfp]
  | cons ln rest ih =>
    intro m
    rw [List.foldl_cons, ih]
    by_cases hfp : fp = f
    · subst hfp
      rw [fileLineKeys_addDefEntry_same]
      simp only [eq_self_iff_true, if_true]
      unfold appendNewKeys
      rw [List.foldl_cons]
    · rw [fileLineKeys_addDefEntry_other _ _ _ _ _ fun h => hfp h.symm]
      simp [if_neg hfp]

/-- The middle loop of `_buildDefinitionMap`, over one symbol's file map. -/
theorem fileLineKeys_fileFold (f sym : PyStr) :
    ∀ (info : List (PyStr × List Int)) (m : FLMap),
      fileLineKeys (info.foldl (fun result fl =>
          fl.2.foldl (fun result ln => addDefEntry result fl.1 ln sym) result) m) f =
        appendNewKeys (fileLineKeys m f)
          (info.flatMap fun fl => if fl.1 = f then fl.2 else []) := by
  intro info
  induction info with
  | nil => intro m; simp [appendNewKeys]
  | cons fl rest ih =>
    intro m
    rw [List.foldl_cons, ih, fileLineKeys_lineFold, List.flatMap_cons]
    unfold appendNewKeys
    rw [List.foldl_append]

/-- The key list for each file equals the first occurrences of that file's
end-line events, in traversal order. -/
theorem fileLineKeys_build (definitions : DB2) (f : PyStr) :
    fileLineKeys (_buildDefinitionMap definitions) f =
      appendNewKeys [] (defEvents definitions f) := by
  unfold _buildDefinitionMap defEvents
  have main : ∀ (defs : DB2) (m : FLMap),
      fileLineKeys (defs.foldl (fun result si =>
        si.2.foldl (fun result fl =>
          fl.2.foldl (fun result ln => addDefEntry result fl.1 ln si.1) result) result) m) f =
      appendNewKeys (fileLineKeys m f)
        (defs.flatMap fun si => si.2.flatMap fun fl => if fl.1 = f then fl.2 else []) := by
    intro defs
    induction defs with
    | nil => intro m; simp [appendNewKeys]
    | cons si rest ih =>
      intro m
      rw [List.foldl_cons, ih, fileLineKeys_fileFold, List.flatMap_cons]
      unfold appendNewKeys
      rw [List.foldl_append]
  have h := main definitions []
  have hempty : fileLineKeys ([] : FLMap) f = [] := by simp [fileLineKeys, alistGet]
  rw [hempty] at h
  exact h

/-- When the keys seen so far all precede the incoming events, first-occurrence
accumulation is plain concatenation. -/
theorem appendNewKeys_of_lt (ls : List Int) :
    ∀ ks : List Int, List.Sorted (· < ·) ls → (∀ x ∈ ks, ∀ y ∈ ls, x < y) →
      appendNewKeys ks ls = ks ++ ls := by
  induction ls with
  | nil => intro ks _ _; simp [appendNewKeys]
  | cons l rest ih =>
    intro ks hs hlt
    have hnot : l ∉ ks := fun hmem => lt_irrefl l (hlt l hmem l (List.mem_cons_self l rest))
    have hs' : List.Sorted (· < ·) rest := (List.sorted_cons.mp hs).2
    have hlt' : ∀ x ∈ ks ++ [l], ∀ y ∈ rest, x < y := by
      intro x hx y hy
      rcases List.mem_append.mp hx with h | h
      · exact hlt x h y (List.mem_cons_of_mem _ hy)
      · have hxl : x = l := by simpa using h
        subst hxl
        exact (List.sorted_cons.mp hs).1 y hy
    have step : appendNewKeys ks (l :: rest) = appendNewKeys (ks ++ [l]) rest := by
      unfold appendNewKeys
      rw [List.foldl_cons, if_neg hnot]
    rw [step, ih (ks ++ [l]) hs' hlt', List.append_assoc]
    rfl

/-- A small cscope stream: file `f.c` holds `foo` (lines 1–50) and `bar`
(lines 50–10 — the second line-number header goes backwards, which the parser
accepts and real cscope output never produces). -/
def sampleStream : List PyStr :=
  ["\t@f.c".toList, "\t$foo".toList, "".toList, "50 x".toList, "\t\x7dx".toList,
   "\t$bar".toList, "".toList, "10 x".toList, "\t\x7dx".toList]

set_option maxRecDepth 40000 in
/-- Claim C4, counterexample.  The index builder never sorts: the per-file key
list of the function-end map is in insertion order.  On `sampleStream`, whose
line-number headers are not increasing, the parser records the end of `foo` at
line 50 before the end of `bar` at line 10, and the built map for file `f.c`
hands `findCaller`'s binary search the key vector `[50, 10]`, which is not
sorted — refuting the claim for arbitrary input databases. -/
theorem C4_counterexample :
    ((parseRef sampleStream).map fun st =>
      fileLineKeys (_buildDefinitionMap st.functionEnds) "f.c".toList) = some [50, 10] ∧
    ¬ List.Sorted (· < ·) [(50 : Int), 10] := by
  constructor
  · decide
  · decide

/-- Claim C4 (amended): the index builder does not sort; the per-file key list
equals the first occurrences of that file's end-line events in traversal
order.  Whenever those events are strictly increasing — as they are for
well-formed cscope databases, whose per-file line-number headers increase —
the key vector handed to the binary search is exactly the event list and is
sorted; for arbitrary input databases it need not be (see the
counterexample). -/
theorem C4_endline_key_order (definitions : DB2) (filePath : PyStr)
    (hsorted : List.Sorted (· < ·) (defEvents definitions filePath)) :
    fileLineKeys (_buildDefinitionMap definitions) filePath =
      defEvents definitions filePath ∧
    List.Sorted (· < ·) (fileLineKeys (_buildDefinitionMap definitions) filePath) := by
  have h := fileLineKeys_build definitions filePath
  rw [appendNewKeys_of_lt _ [] hsorted (by intro x hx; simp at hx)] at h
  rw [List.nil_append] at h
  exact ⟨h, h ▸ hsorted⟩

set_option maxRecDepth 40000 in
/-- Witness for C4: a two-extent database whose end events for `f.c` are
`[10, 50]`, already increasing; the built key vector equals them and is
sorted. -/
theorem C4_endline_key_order_witness :
    fileLineKeys (_buildDefinitionMap
        [("f.c,1,foo".toList, [("f.c".toList, [(10 : Int)])]),
         ("f.c,20,bar".toList, [("f.c".toList, [(50 : Int)])])]) "f.c".toList =
      defEvents
        [("f.c,1,foo".toList, [("f.c".toList, [(10 : Int)])]),
         ("f.c,20,bar".toList, [("f.c".toList, [(50 : Int)])])] "f.c".toList ∧
    List.Sorted (· < ·) (fileLineKeys (_buildDefinitionMap
        [("f.c,1,foo".toList, [("f.c".toList, [(10 : Int)])]),
         ("f.c,20,bar".toList, [("f.c".toList, [(50 : Int)])])]) "f.c".toList) :=
  C4_endline_key_order _ _ (by decide)

/-- One parser step never fails on a line that is neither a lone tab nor a
malformed line-number header. -/
theorem parseLine_isSome (st : ParseState) (line : PyStr)
    (htab : line.head? = some '\t' → 2 ≤ line.length)
    (hnum : (∃ c, line.head? = some c ∧ pyIsNumeric c) →
      (pyInt (line.takeWhile fun ch => ch ≠ ' ')).isSome) :
    (parseLine st line).isSome := by
  unfold parseLine
  by_cases h1 : st.state ≠ 2 ∧ line = []
  · simp [h1]
  · rw [if_neg h1]
    cases line with
    | nil => simp
    | cons c cs =>
      dsimp only
      by_cases hsp : c = ' '
      · simp [hsp]
      · rw [if_neg hsp]
        by_cases hn : st.state = 1 ∧ pyIsNumeric c
        · rw [if_pos hn]
          cases hp : pyInt ((c :: cs).takeWhile fun ch => ch ≠ ' ') with
          | some n => simp
          | none =>
            exfalso
            have hs := hnum ⟨c, rfl, hn.2⟩
            rw [List.takeWhile_cons] at hs
            rw [List.takeWhile_cons] at hp
            rw [hp] at hs
            simp at hs
        · rw [if_neg hn]
          by_cases htc : c = '\t'
          · rw [if_pos htc]
            cases cs with
            | nil =>
              exfalso
              have h2 := htab (by simp [htc])
              simp at h2
            | cons lineHead lineEnd =>
              dsimp only
              split_ifs <;> simp
          · rw [if_neg htc]
            by_cases hw : isWordChar c <;> simp [hw]

/-- Function `parseRef` runs to completion whenever every tab-led line has at least two
characters and every line led by a numeric character begins with a well-formed
integer token. -/
theorem parseRef_isSome (cscope : List PyStr)
    (htab : ∀ line ∈ cscope, line.head? = some '\t' → 2 ≤ line.length)
    (hnum : ∀ line ∈ cscope, (∃ c, line.head? = some c ∧ pyIsNumeric c) →
      (pyInt (line.takeWhile fun ch => ch ≠ ' ')).isSome) :
    (parseRef cscope).isSome := by
  unfold parseRef
  have main : ∀ ls : List PyStr,
      (∀ line ∈ ls, line.head? = some '\t' → 2 ≤ line.length) →
      (∀ line ∈ ls, (∃ c, line.head? = some c ∧ pyIsNumeric c) →
        (pyInt (line.takeWhile fun ch => ch ≠ ' ')).isSome) →
      ∀ st : ParseState,
        (ls.foldl (fun acc line => acc.bind fun st => parseLine st line) (some st)).isSome := by
    intro ls
    induction ls with
    | nil => intro _ _ st; simp
    | cons l rest ih =>
      intro h1 h2 st
      rw [List.foldl_cons]
      have hl := parseLine_isSome st l (h1 l (by simp)) (h2 l (by simp))
      cases hp : parseLine st l with
      | none => rw [hp] at hl; simp at hl
      | some st' =>
        have hb : (some st).bind (fun st => parseLine st l) = some st' := by simp [hp]
        rw [hb]
        exact ih (fun line hm => h1 line (by simp [hm])) (fun line hm => h2 line (by simp [hm]))
          st'
  exact main cscope htab hnum initParseState

/-- Claim C5, counterexample.  `parseRef` is NOT total: the single-character
line `"\t"` reaches `lineHead = line[1]` and raises `IndexError` (modelled as
`none`), refuting "parseRef runs to completion for every sequence of input
lines". -/
theorem C5_counterexample : parseRef [['\t']] = none := rfl

/-- Claim C5 (amended): the parser never throws provided no line is a lone tab
(`line[1]` would raise `IndexError`) and every line whose first character is
numeric starts with a well-formed integer token (`int(...)` would raise
`ValueError`); on such streams truncated or otherwise malformed lines are
skipped, and a tab-led line with an unknown prefix byte is silently ignored,
leaving the parser state unchanged. -/
theorem C5_parser_no_throw :
    (∀ cscope : List PyStr,
      (∀ line ∈ cscope, line.head? = some '\t' → 2 ≤ line.length) →
      (∀ line ∈ cscope, (∃ c, line.head? = some c ∧ pyIsNumeric c) →
        (pyInt (line.takeWhile fun ch => ch ≠ ' ')).isSome) →
      (parseRef cscope).isSome) ∧
    (∀ (st : ParseState) (c : Char) (rest : PyStr),
      c ∉ (['`', '#', ')', '$', '}', 'c', 's', 't', 'e', 'm', '@'] : List Char) →
      parseLine st ('\t' :: c :: rest) = some st) := by
  constructor
  · exact parseRef_isSome
  · intro st c rest hnot
    have h1 : c ≠ '`' := fun h => hnot (by simp [h])
    have h2 : c ≠ '#' := fun h => hnot (by simp [h])
    have h3 : c ≠ ')' := fun h => hnot (by simp [h])
    have h4 : c ≠ '$' := fun h => hnot (by simp [h])
    have h5 : c ≠ '}' := fun h => hnot (by simp [h])
    have h6 : c ≠ 'c' := fun h => hnot (by simp [h])
    have h7 : c ≠ 's' := fun h => hnot (by simp [h])
    have h8 : c ≠ 't' := fun h => hnot (by simp [h])
    have h9 : c ≠ 'e' := fun h => hnot (by simp [h])
    have h10 : c ≠ 'm' := fun h => hnot (by simp [h])
    have h11 : c ≠ '@' := fun h => hnot (by simp [h])
    have ht1 : ¬ (('\t' : Char) = ' ') := by decide
    have ht2 : pyIsNumeric '\t' = false := by decide
    simp [parseLine, h1, h2, h3, h4, h5, h6, h7, h8, h9, h10, h11, ht1, ht2]

set_option maxRecDepth 40000 in
/-- Witness for C5: the sample stream satisfies both side conditions and
parses to completion; and a line `"\tz..."` with the unknown prefix byte `z`
leaves the initial state unchanged. -/
theorem C5_parser_no_throw_witness :
    (parseRef sampleStream).isSome ∧
    parseLine initParseState ('\t' :: 'z' :: "ignored".toList) = some initParseState :=
  ⟨C5_parser_no_throw.1 sampleStream (by decide) (by decide),
   C5_parser_no_throw.2 initParseState 'z' "ignored".toList (by decide)⟩

/-! ## Recorded reference sites (claim C10) -/

/-- All line numbers stored anywhere in a two-level map. -/
def db2Lines (m : DB2) : List Int :=
  m.flatMap fun si => si.2.flatMap fun fl => fl.2

/-- Every binding of `alistSet d k v` is either an old binding or carries the
new value. -/
theorem mem_alistSet {α β : Type} [DecidableEq α] (d : List (α × β)) (k : α) (v : β)
    (e : α × β) (he : e ∈ alistSet d k v) : e ∈ d ∨ e.2 = v := by
  induction d with
  | nil => simp [alistSet] at he; simp [he]
  | cons hd tl ih =>
    obtain ⟨k', v'⟩ := hd
    by_cases hk : k = k'
    · simp [alistSet, hk] at he
      rcases he with he | he
      · simp [he]
      · exact Or.inl (by simp [he])
    · simp only [alistSet, if_neg hk] at he
      rcases List.mem_cons.mp he with he | he
      · exact Or.inl (by simp [he])
      · rcases ih he with h | h
        · exact Or.inl (List.mem_cons_of_mem _ h)
        · exact Or.inr h

theorem db2Lines_of_mem (m : DB2) (sym : PyStr) (inner : List (PyStr × List Int))
    (fl : PyStr × List Int) (x : Int)
    (h1 : (sym, inner) ∈ m) (h2 : fl ∈ inner) (h3 : x ∈ fl.2) : x ∈ db2Lines m := by
  unfold db2Lines
  rw [List.mem_flatMap]
  exact ⟨(sym, inner), h1, List.mem_flatMap.mpr ⟨fl, h2, h3⟩⟩

/-- Any line found in `db2Add m sym fp ln` was already in `m` or is `ln`. -/
theorem db2Lines_db2Add (m : DB2) (sym fp : PyStr) (ln x : Int)
    (hx : x ∈ db2Lines (db2Add m sym fp ln)) : x ∈ db2Lines m ∨ x = ln := by
  unfold db2Add at hx
  unfold db2Lines at hx
  rw [List.mem_flatMap] at hx
  obtain ⟨si, hsi, hfl⟩ := hx
  rw [List.mem_flatMap] at hfl
  obtain ⟨fl, hflm, hxin⟩ := hfl
  -- names for the intermediate dicts of `db2Add`
  set m1 := if (alistGet m sym).isNone then alistSet m sym [] else m with hm1
  set inner := (alistGet m1 sym).getD [] with hinner
  set inner1 :=
    if (alistGet inner fp).isNone then alistSet inner fp [] else inner with hinner1
  set lines := (alistGet inner1 fp).getD [] with hlines
  -- membership of an entry of `inner` in the original map
  have hinner_orig : ∀ fl' : PyStr × List Int, fl' ∈ inner → ∀ y, y ∈ fl'.2 →
      y ∈ db2Lines m := by
    intro fl' hfl' y hy
    cases hg : alistGet m1 sym with
    | none => rw [hinner, hg] at hfl'; simp at hfl'
    | some i =>
      rw [hinner, hg] at hfl'
      simp at hfl'
      have hmem : (sym, i) ∈ m1 := alistGet_some_mem _ _ _ hg
      rw [hm1] at hmem
      by_cases hn : (alistGet m sym).isNone
      · rw [if_pos hn] at hmem
        rcases mem_alistSet _ _ _ _ hmem with h | h
        · exact db2Lines_of_mem m sym i fl' y h hfl' hy
        · simp at h; rw [h] at hfl'; simp at hfl'
      · rw [if_neg hn] at hmem
        exact db2Lines_of_mem m sym i fl' y hmem hfl' hy
  have hinner1_orig : ∀ fl' : PyStr × List Int, fl' ∈ inner1 → ∀ y, y ∈ fl'.2 →
      y ∈ db2Lines m := by
    intro fl' hfl' y hy
    rw [hinner1] at hfl'
    by_cases hn : (alistGet inner fp).isNone
    · rw [if_pos hn] at hfl'
      rcases mem_alistSet _ _ _ _ hfl' with h | h
      · exact hinner_orig fl' h y hy
      · rw [h] at hy; simp at hy
    · rw [if_neg hn] at hfl'
      exact hinner_orig fl' hfl' y hy
  have hlines_orig : ∀ y ∈ lines, y ∈ db2Lines m := by
    intro y hy
    cases hg : alistGet inner1 fp with
    | none => rw [hlines, hg] at hy; simp at hy
    | some l' =>
      rw [hlines, hg] at hy
      simp at hy
      exact hinner1_orig (fp, l') (alistGet_some_mem _ _ _ hg) y hy
  -- the outer `alistSet m1 sym (alistSet inner1 fp (lines ++ [ln]))`
  obtain ⟨s1, s2⟩ := si
  rcases mem_alistSet _ _ _ _ hsi with hold | hnew
  · -- `si` is an untouched entry of `m1`
    rw [hm1] at hold
    by_cases hn : (alistGet m sym).isNone
    · rw [if_pos hn] at hold
      rcases mem_alistSet _ _ _ _ hold with h | h
      · exact Or.inl (db2Lines_of_mem m s1 s2 fl x h hflm hxin)
      · simp only at h; rw [h] at hflm; simp at hflm
    · rw [if_neg hn] at hold
      exact Or.inl (db2Lines_of_mem m s1 s2 fl x hold hflm hxin)
  · -- `si` carries the rebuilt inner dict
    simp only at hnew
    rw [hnew] at hflm
    rcases mem_alistSet _ _ _ _ hflm with h | h
    · exact Or.inl (hinner1_orig fl h x hxin)
    · rw [h] at hxin
      rcases List.mem_append.mp hxin with h' | h'
      · exact Or.inl (hlines_orig x h')
      · simp at h'; exact Or.inr h'

/-- Python `int(...)` of an all-digit token is nonnegative. -/
theorem pyInt_nonneg (s : PyStr) (n : Int) (h : pyInt s = some n) : 0 ≤ n := by
  unfold pyInt at h
  set t := ((s.dropWhile isPySpace).reverse.dropWhile isPySpace).reverse with ht
  by_cases hc : t ≠ [] ∧ t.all Char.isDigit
  · rw [if_pos hc] at h
    have hfold : ∀ l : List Char, (∀ c ∈ l, c.isDigit) → ∀ a : Int, 0 ≤ a →
        0 ≤ l.foldl (fun a c => a * 10 + ((c.toNat : Int) - 48)) a := by
      intro l
      induction l with
      | nil => intro _ a ha; simpa using ha
      | cons c cs ih =>
        intro hdig a ha
        rw [List.foldl_cons]
        apply ih (fun c hc => hdig c (List.mem_cons_of_mem _ hc))
        have h48 : 48 ≤ c.toNat := by
          have hd := hdig c (List.mem_cons_self c cs)
          simp [Char.isDigit] at hd
          exact hd.1
        have : (48 : Int) ≤ (c.toNat : Int) := by exact_mod_cast h48
        nlinarith
    have hall : ∀ c ∈ t, c.isDigit := by
      intro c hcm
      exact List.all_eq_true.mp hc.2 c hcm
    have := hfold t hall 0 le_rfl
    simp at h
    omega
  · rw [if_neg hc] at h
    simp at h

/-- Parser invariant used for claim C10. -/
def LinesNonneg (st : ParseState) : Prop :=
  0 ≤ st.curLineNum ∧ ∀ ln ∈ db2Lines st.references, 0 ≤ ln

theorem nonneg_db2Add (m : DB2) (sym fp : PyStr) (n : Int)
    (hm : ∀ ln ∈ db2Lines m, 0 ≤ ln) (hn : 0 ≤ n) :
    ∀ ln ∈ db2Lines (db2Add m sym fp n), 0 ≤ ln := by
  intro ln hln
  rcases db2Lines_db2Add m sym fp n ln hln with h | h
  · exact hm ln h
  · omega

/-- Every parser step preserves `LinesNonneg`. -/
theorem parseLine_nonneg (st st' : ParseState) (line : PyStr)
    (hst : LinesNonneg st) (h : parseLine st line = some st') : LinesNonneg st' := by
  obtain ⟨hcur, hrefs⟩ := hst
  unfold parseLine at h
  by_cases h1 : st.state ≠ 2 ∧ line = []
  · rw [if_pos h1] at h
    injection h with h
    subst h
    exact ⟨hcur, hrefs⟩
  · rw [if_neg h1] at h
    cases line with
    | nil =>
      injection h with h
      subst h
      exact ⟨hcur, hrefs⟩
    | cons c cs =>
      dsimp only at h
      by_cases hsp : c = ' '
      · rw [if_pos hsp] at h
        injection h with h
        subst h
        exact ⟨hcur, hrefs⟩
      · rw [if_neg hsp] at h
        by_cases hn : st.state = 1 ∧ pyIsNumeric c
        · rw [if_pos hn] at h
          cases hp : pyInt ((c :: cs).takeWhile fun ch => ch ≠ ' ') with
          | none => rw [hp] at h; exact absurd h (by simp)
          | some n =>
            rw [hp] at h
            injection h with h
            subst h
            exact ⟨pyInt_nonneg _ _ hp, hrefs⟩
        · rw [if_neg hn] at h
          by_cases htc : c = '\t'
          · rw [if_pos htc] at h
            cases cs with
            | nil => exact absurd h (by simp)
            | cons lineHead lineEnd =>
              dsimp only at h
              by_cases b1 : lineHead = '`'
              · rw [if_pos b1] at h
                injection h with h
                subst h
                exact ⟨hcur, nonneg_db2Add _ _ _ _ hrefs hcur⟩
              · rw [if_neg b1] at h
                by_cases b2 : st.state ≠ 2 ∧ lineHead = '#'
                · rw [if_pos b2] at h
                  injection h with h
                  subst h
                  exact ⟨hcur, hrefs⟩
                · rw [if_neg b2] at h
                  by_cases b3 : st.state = 2 ∧ lineHead = ')'
                  · rw [if_pos b3] at h
                    injection h with h
                    subst h
                    exact ⟨hcur, hrefs⟩
                  · rw [if_neg b3] at h
                    by_cases b4 : lineHead = '$'
                    · rw [if_pos b4] at h
                      injection h with h
                      subst h
                      exact ⟨hcur, hrefs⟩
                    · rw [if_neg b4] at h
                      by_cases b5 : lineHead = '}'
                      · rw [if_pos b5] at h
                        injection h with h
                        subst h
                        exact ⟨hcur, hrefs⟩
                      · rw [if_neg b5] at h
                        by_cases b6 : lineHead = 'c' ∨ lineHead = 's' ∨ lineHead = 't' ∨
                            lineHead = 'e' ∨ lineHead = 'm'
                        · rw [if_pos b6] at h
                          injection h with h
                          subst h
                          exact ⟨hcur, hrefs⟩
                        · rw [if_neg b6] at h
                          by_cases b7 : lineHead = '@'
                          · rw [if_pos b7] at h
                            injection h with h
                            subst h
                            exact ⟨by norm_num, hrefs⟩
                          · rw [if_neg b7] at h
                            injection h with h
                            subst h
                            exact ⟨hcur, hrefs⟩
          · rw [if_neg htc] at h
            by_cases hw : isWordChar c
            · rw [if_pos hw] at h
              injection h with h
              subst h
              exact ⟨hcur, nonneg_db2Add _ _ _ _ hrefs hcur⟩
            · rw [if_neg hw] at h
              injection h with h
              subst h
              exact ⟨hcur, hrefs⟩

set_option maxRecDepth 40000 in
/-- Claim C10, counterexample.  `curLineNum` starts at `0`, so a reference-like
line met before any line-number or filename header is recorded at line `0` —
this happens even on genuine databases, whose very first line is the
`cscope 15 ...` header: it matches the identifier class and is stored via
`addRef` with line number `0 < 1`, refuting "every stored line is ≥ 1". -/
theorem C10_counterexample :
    ((parseRef ["cscope 15 .".toList]).map fun st => st.references) =
      some [("cscope 15 .".toList, [(STR_DEFAULT_FILENAME, [0])])] ∧
    ¬ (1 ≤ (0 : Int)) := by
  constructor
  · decide
  · decide

/-- Claim C10 (amended): every reference site stored via `addRef` during a
completed parse has a NONNEGATIVE line number (`≥ 0`, not `≥ 1`): the counter
starts at `0` and is only ever set to `1` (filename header) or to a parsed
nonnegative integer (line-number header). -/
theorem foldl_parseLine_none (ls : List PyStr) :
    ls.foldl (fun acc line => acc.bind fun s => parseLine s line) none = none := by
  induction ls with
  | nil => rfl
  | cons l rest ih =>
    rw [List.foldl_cons]
    simpa using ih

theorem C10_reference_lines_nonneg (cscope : List PyStr) (st : ParseState)
    (h : parseRef cscope = some st) : ∀ ln ∈ db2Lines st.references, 0 ≤ ln := by
  unfold parseRef at h
  have main : ∀ (ls : List PyStr) (st0 : ParseState), LinesNonneg st0 →
      (ls.foldl (fun acc line => acc.bind fun s => parseLine s line) (some st0)) = some st →
      LinesNonneg st := by
    intro ls
    induction ls with
    | nil =>
      intro st0 h0 hf
      simp at hf
      subst hf
      exact h0
    | cons l rest ih =>
      intro st0 h0 hf
      rw [List.foldl_cons] at hf
      cases hp : parseLine st0 l with
      | none =>
        rw [show (some st0).bind (fun s => parseLine s l) = none by simp [hp]] at hf
        rw [foldl_parseLine_none] at hf
        exact absurd hf (by simp)
      | some st1 =>
        rw [show (some st0).bind (fun s => parseLine s l) = some st1 by simp [hp]] at hf
        exact ih st1 (parseLine_nonneg st0 st1 l h0 hp) hf
  exact (main cscope initParseState ⟨le_rfl, by simp [initParseState, db2Lines]⟩ h).2

set_option maxRecDepth 40000 in
/-- Witness for C10: the parse of the one-line header stream succeeds, line 0
is among its recorded reference lines, and the theorem delivers `0 ≤ 0` for
that line. -/
theorem C10_reference_lines_nonneg_witness :
    (0 : Int) ∈ db2Lines ((parseRef ["cscope 15 .".toList]).getD initParseState).references ∧
      (0 : Int) ≤ 0 :=
  ⟨by decide,
    C10_reference_lines_nonneg ["cscope 15 .".toList]
      ((parseRef ["cscope 15 .".toList]).getD initParseState) (by rfl) 0 (by decide)⟩

/-! ## Binary search of `findCaller` (claim C3)

The `while` loops are written with an explicit iteration bound (`fuel`): the
search interval shrinks strictly at every iteration, so `a.length + 1`
iterations always suffice — the fuel-exhausted branches are unreachable from
`binarySearch` and merely make the recursion structural (hence executable in
proofs by evaluation).  `bsLoop` returns the last value of `middle` (`none`
when the loop body never ran and the Python local would be unbound) together
with `callerLine` (`0` unless the loop broke at an exact hit). -/

def bsLoop (a : List Int) (line : Int) : Nat → Nat → Int → Option Nat → Option Nat × Int
  | 0, _, _, mid => (mid, 0)
  | fuel + 1, left, right, mid =>
    if (left : Int) ≤ right then
      match a.get? ((left + right.toNat) / 2) with
      | none => (some ((left + right.toNat) / 2), 0)  -- out of range: unreachable
      | some v =>
        if v = line then (some ((left + right.toNat) / 2), v)
        else if v > line then
          bsLoop a line fuel left (((left + right.toNat) / 2 : Nat) - 1) (some ((left + right.toNat) / 2))
        else bsLoop a line fuel ((left + right.toNat) / 2 + 1) right (some ((left + right.toNat) / 2))
    else (mid, 0)

/-- Loop `while middle > 0 and lineNumbers[middle] >= lineNumber: middle -= 1`
(the `middle > 0` test comes first, so index 0 is never read at the stop). -/
def goDown (a : List Int) (line : Int) : Nat → Nat
  | 0 => 0
  | m + 1 =>
    match a.get? (m + 1) with
    | some v => if v ≥ line then goDown a line m else m + 1
    | none => m + 1   -- out of range: unreachable

/-- Loop `while middle + 1 < len(lineNumbers) and lineNumbers[middle] < lineNumber:
middle += 1`, with the same iteration bound. -/
def goUp (a : List Int) (line : Int) : Nat → Nat → Nat
  | 0, m => m
  | fuel + 1, m =>
    if m + 1 < a.length then
      match a.get? m with
      | some v => if v < line then goUp a line fuel (m + 1) else m
      | none => m
    else m

/-- Function `binarySearch(lineNumbers, mode)` with `lineNumber` captured from
`findCaller`.  Mode `1` is `ENUM_LESS_OR_EQUAL`, mode `0` is
`ENUM_GREATER_OR_EQUAL`, any other mode logs an error and returns `-1`.
`none` models the `UnboundLocalError` raised on an empty vector, where the
loop body never runs and the final `return middle` reads an unbound local. -/
def binarySearch (a : List Int) (line : Int) (mode : Nat) : Option Int :=
  match bsLoop a line (a.length + 1) 0 ((a.length : Int) - 1) none with
  | (none, _) => none
  | (some m, callerLine) =>
    if callerLine = 0 then
      if mode = 1 then some ((goDown a line (goUp a line (a.length + 1) m) : Nat) : Int)
      else if mode = 0 then some ((goUp a line (a.length + 1) (goDown a line m) : Nat) : Int)
      else some (-1)
    else some ((m : Nat) : Int)

/-! ### Binary search facts -/

/-- Exiting the loop (`left > right`) keeps the last `middle`, at any fuel. -/
theorem bsLoop_exit (a : List Int) (line : Int) (fuel : Nat) (left : Nat) (right : Int)
    (mid : Option Nat) (h : ¬ ((left : Int) ≤ right)) :
    bsLoop a line fuel left right mid = (mid, 0) := by
  cases fuel with
  | zero => rfl
  | succ f => simp [bsLoop, h]

theorem sorted_get_lt (a : List Int) (hs : List.Sorted (· < ·) a)
    (i j : Nat) (vi vj : Int) (hi : a.get? i = some vi) (hj : a.get? j = some vj)
    (hij : i < j) : vi < vj := by
  obtain ⟨hi', hvi⟩ := List.get?_eq_some.mp hi
  obtain ⟨hj', hvj⟩ := List.get?_eq_some.mp hj
  subst hvi hvj
  exact List.pairwise_iff_get.mp hs ⟨i, hi'⟩ ⟨j, hj'⟩ hij

/-- When every entry is below the searched line, the loop marches right and
stops at the last index. -/
theorem bsLoop_all_lt (a : List Int) (line : Int) (hne : a ≠ [])
    (hall : ∀ v ∈ a, v < line) :
    ∀ (fuel left : Nat) (mid : Option Nat), left ≤ a.length - 1 →
      a.length - left ≤ fuel →
      bsLoop a line fuel left ((a.length : Int) - 1) mid = (some (a.length - 1), 0) := by
  have hlen : 1 ≤ a.length := by
    cases a with
    | nil => exact absurd rfl hne
    | cons x xs => simp
  intro fuel
  induction fuel with
  | zero => intro left mid hb hf; omega
  | succ f ih =>
    intro left mid hb hf
    have hcond : ((left : Nat) : Int) ≤ (a.length : Int) - 1 := by omega
    have hrt : ((a.length : Int) - 1).toNat = a.length - 1 := by omega
    simp only [bsLoop, if_pos hcond, hrt]
    have hmlt : (left + (a.length - 1)) / 2 < a.length := by omega
    have hv := List.get?_eq_get (l := a) hmlt
    have hvlt : a.get ⟨(left + (a.length - 1)) / 2, hmlt⟩ < line :=
      hall _ (a.get_mem _ _)
    simp only [hv]
    rw [if_neg (by omega : ¬ a.get ⟨(left + (a.length - 1)) / 2, hmlt⟩ = line),
      if_neg (by omega : ¬ a.get ⟨(left + (a.length - 1)) / 2, hmlt⟩ > line)]
    by_cases hmtop : (left + (a.length - 1)) / 2 + 1 ≤ a.length - 1
    · exact ih _ _ hmtop (by omega)
    · have hmeq : (left + (a.length - 1)) / 2 = a.length - 1 := by omega
      rw [bsLoop_exit a line f _ _ _ (by omega), hmeq]

/-- When every entry is above the searched line, the loop marches left and
stops at index 0. -/
theorem bsLoop_all_gt (a : List Int) (line : Int) (hall : ∀ v ∈ a, line < v) :
    ∀ (fuel : Nat) (right : Int) (mid : Option Nat), 0 ≤ right →
      right ≤ (a.length : Int) - 1 → right + 1 ≤ (fuel : Int) →
      bsLoop a line fuel 0 right mid = (some 0, 0) := by
  intro fuel
  induction fuel with
  | zero => intro right mid h0 hb hf; omega
  | succ f ih =>
    intro right mid h0 hb hf
    have hcond : (((0 : Nat) : Nat) : Int) ≤ right := by omega
    simp only [bsLoop, if_pos hcond, Nat.zero_add]
    have hrt : ((right.toNat / 2 : Nat) : Int) ≤ right := by omega
    have hmlt : right.toNat / 2 < a.length := by omega
    have hv := List.get?_eq_get (l := a) hmlt
    have hvgt : line < a.get ⟨right.toNat / 2, hmlt⟩ := hall _ (a.get_mem _ _)
    simp only [hv]
    rw [if_neg (by omega : ¬ a.get ⟨right.toNat / 2, hmlt⟩ = line),
      if_pos (by omega : a.get ⟨right.toNat / 2, hmlt⟩ > line)]
    by_cases hm0 : right.toNat / 2 = 0
    · rw [hm0]
      rw [bsLoop_exit a line f _ _ _ (by omega)]
    · exact ih _ _ (by omega) (by omega) (by omega)

/-- When the searched line occurs at index `i` of a strictly sorted vector and
`i` lies inside the interval, the loop breaks at the exact hit. -/
theorem bsLoop_find (a : List Int) (line : Int) (hs : List.Sorted (· < ·) a) (i : Nat)
    (hget : a.get? i = some line) :
    ∀ (fuel left : Nat) (right : Int) (mid : Option Nat), left ≤ i →
      (i : Int) ≤ right → right ≤ (a.length : Int) - 1 →
      (right + 1 - left).toNat ≤ fuel →
      bsLoop a line fuel left right mid = (some i, line) := by
  intro fuel
  induction fuel with
  | zero => intro left right mid h1 h2 h3 hf; omega
  | succ f ih =>
    intro left right mid h1 h2 h3 hf
    have hcond : ((left : Nat) : Int) ≤ right := by omega
    simp only [bsLoop, if_pos hcond]
    have hmlt : (left + right.toNat) / 2 < a.length := by omega
    have hv := List.get?_eq_get (l := a) hmlt
    simp only [hv]
    rcases lt_trichotomy (a.get ⟨(left + right.toNat) / 2, hmlt⟩) line with hlt | heq | hgt
    · -- value below the hit: the hit index is to the right
      have hmi : (left + right.toNat) / 2 < i := by
        rcases Nat.lt_trichotomy ((left + right.toNat) / 2) i with h | h | h
        · exact h
        · rw [← h] at hget
          rw [List.get?_eq_get hmlt] at hget
          injection hget with hget
          omega
        · have := sorted_get_lt a hs i _ line _ hget (List.get?_eq_get hmlt) h
          omega
      rw [if_neg (by omega), if_neg (by omega)]
      exact ih _ _ _ (by omega) (by omega) h3 (by omega)
    · rw [if_pos heq]
      have hmi : (left + right.toNat) / 2 = i := by
        rcases Nat.lt_trichotomy ((left + right.toNat) / 2) i with h | h | h
        · have := sorted_get_lt a hs _ i _ line (List.get?_eq_get hmlt) hget h
          omega
        · exact h
        · have := sorted_get_lt a hs i _ line _ hget (List.get?_eq_get hmlt) h
          omega
      simp only [Prod.mk.injEq]
      exact ⟨by rw [hmi], heq⟩
    · -- value above the hit: the hit index is to the left
      have hmi : i < (left + right.toNat) / 2 := by
        rcases Nat.lt_trichotomy i ((left + right.toNat) / 2) with h | h | h
        · exact h
        · rw [h] at hget
          rw [List.get?_eq_get hmlt] at hget
          injection hget with hget
          omega
        · have := sorted_get_lt a hs _ i _ line (List.get?_eq_get hmlt) hget h
          omega
      rw [if_neg (by omega), if_pos (by omega)]
      exact ih _ _ _ h1 (by omega) (by omega) (by omega)

/-- Loop `goDown` from an index whose entry is `≥ line` while its left neighbour is
`< line` steps down exactly once (and not at all from index 0). -/
theorem goDown_of_get (a : List Int) (line : Int) (i : Nat) (v : Int)
    (hget : a.get? i = some v) (hge : v ≥ line)
    (hprev : ∀ j w, i = j + 1 → a.get? j = some w → w < line) :
    goDown a line i = i - 1 := by
  cases i with
  | zero => rfl
  | succ k =>
    rw [goDown]
    simp only [hget]
    rw [if_pos hge]
    cases k with
    | zero => rfl
    | succ j =>
      have hjlt : j + 1 < a.length := by
        have := (List.get?_eq_some.mp hget).1
        omega
      have hw := List.get?_eq_get (l := a) hjlt
      have hwlt := hprev (j + 1) _ rfl hw
      rw [goDown]
      simp only [hw]
      rw [if_neg (by omega)]
      omega

/-- Loop `goUp` stops as soon as the entry is not `< line` or the index is last. -/
theorem goUp_stop (a : List Int) (line : Int) (fuel m : Nat)
    (h : m + 1 < a.length → ∀ v, a.get? m = some v → ¬ v < line) :
    goUp a line (fuel + 1) m = m := by
  rw [goUp]
  by_cases hm : m + 1 < a.length
  · rw [if_pos hm]
    have hmlt : m < a.length := by omega
    have hv := List.get?_eq_get (l := a) hmlt
    simp only [hv]
    rw [if_neg (h hm _ hv)]
  · rw [if_neg hm]

set_option maxRecDepth 40000 in
/-- Claim C3, counterexample.  In `GREATER_OR_EQUAL` mode the search never
returns `-1`: on the empty vector the loop body never runs and the final
`return middle` raises `UnboundLocalError` (modelled as `none`), and when the
searched line is greater than every entry the search returns the LAST index
(here `binarySearch([5], 10) = 0`), not `-1`. -/
theorem C3_counterexample :
    binarySearch [] 7 0 = none ∧
    binarySearch [(5 : Int)] 10 0 = some 0 ∧ (0 : Int) ≠ -1 := by
  refine ⟨by decide, by decide, by decide⟩

/-- Loop `goUp` takes one step when the entry is `< line` and the index is not
last. -/
theorem goUp_step (a : List Int) (line : Int) (fuel m : Nat)
    (hlt : m + 1 < a.length) (v : Int) (hget : a.get? m = some v) (hv : v < line) :
    goUp a line (fuel + 1) m = goUp a line fuel (m + 1) := by
  rw [goUp, if_pos hlt]
  simp only [hget]
  rw [if_pos hv]

/-- Claim C3 (amended): on a strictly sorted vector, `GREATER_OR_EQUAL` mode
satisfies: the empty vector raises `UnboundLocalError` (`none`), NOT `-1`;
a line greater than all entries returns the LAST index `len - 1`, NOT `-1`;
a line before all entries returns `0`; an exact hit returns its index. -/
theorem C3_binarySearch_ge (a : List Int) (line : Int) (hs : List.Sorted (· < ·) a) :
    (a = [] → binarySearch a line 0 = none) ∧
    (a ≠ [] → (∀ v ∈ a, v < line) →
      binarySearch a line 0 = some ((a.length - 1 : Nat) : Int)) ∧
    (a ≠ [] → (∀ v ∈ a, line < v) → binarySearch a line 0 = some 0) ∧
    (∀ i : Nat, a.get? i = some line → binarySearch a line 0 = some (i : Int)) := by
  refine ⟨?_, ?_, ?_, ?_⟩
  · intro h
    subst h
    rfl
  · -- the searched line is greater than all entries
    intro hne hall
    have hlen : 1 ≤ a.length := by
      cases a with
      | nil => exact absurd rfl hne
      | cons x xs => simp
    have hbs := bsLoop_all_lt a line hne hall (a.length + 1) 0 none (by omega) (by omega)
    have hdown : goDown a line (a.length - 1) = a.length - 1 := by
      cases h : a.length - 1 with
      | zero => rfl
      | succ k =>
        have hvlast : a.get? (k + 1) = some (a.get ⟨k + 1, by omega⟩) :=
          List.get?_eq_get (by omega)
        have hlast_lt : a.get ⟨k + 1, by omega⟩ < line := hall _ (a.get_mem _ _)
        rw [goDown]
        simp only [hvlast]
        rw [if_neg (by omega)]
    have hup : goUp a line (a.length + 1) (a.length - 1) = a.length - 1 :=
      goUp_stop a line a.length (a.length - 1) (by omega)
    unfold binarySearch
    rw [hbs]
    simp [hdown, hup]
  · -- the searched line is before all entries
    intro hne hall
    have hlen : 1 ≤ a.length := by
      cases a with
      | nil => exact absurd rfl hne
      | cons x xs => simp
    have hbs := bsLoop_all_gt a line hall (a.length + 1) ((a.length : Int) - 1) none
      (by omega) (by omega) (by omega)
    have hup : goUp a line (a.length + 1) 0 = 0 := by
      apply goUp_stop
      intro h1 v hv
      have : v ∈ a := by
        obtain ⟨hlt, hget⟩ := List.get?_eq_some.mp hv
        rw [← hget]
        exact a.get_mem _ _
      have := hall v this
      omega
    unfold binarySearch
    rw [hbs]
    simp [goDown, hup]
  · -- exact hit
    intro i hget
    have hilen : i < a.length := (List.get?_eq_some.mp hget).1
    have hbs := bsLoop_find a line hs i hget (a.length + 1) 0 ((a.length : Int) - 1) none
      (by omega) (by omega) (by omega) (by omega)
    unfold binarySearch
    rw [hbs]
    by_cases hline : line = 0
    · subst hline
      have hdown : goDown a 0 i = i - 1 := by
        apply goDown_of_get a 0 i 0 hget le_rfl
        intro j w hij hj
        exact sorted_get_lt a hs j i w 0 hj hget (by omega)
      have hup : goUp a 0 (a.length + 1) (i - 1) = i := by
        cases i with
        | zero =>
          apply goUp_stop
          intro h1 v hv
          rw [hget] at hv
          injection hv with hv
          omega
        | succ k =>
          have hkv : a.get? k = some (a.get ⟨k, by omega⟩) := List.get?_eq_get (by omega)
          have hkvlt : a.get ⟨k, by omega⟩ < 0 :=
            sorted_get_lt a hs k (k + 1) _ 0 hkv hget (by omega)
          have hstep := goUp_step a 0 a.length k (by omega) _ hkv hkvlt
          rw [show k + 1 - 1 = k from rfl, hstep]
          obtain ⟨f, hf⟩ : ∃ f, a.length = f + 1 := ⟨a.length - 1, by omega⟩
          rw [hf]
          apply goUp_stop
          intro h1 v hv
          rw [hget] at hv
          injection hv with hv
          omega
      simp [hdown, hup]
    · simp [hline]

set_option maxRecDepth 40000 in
/-- Witness for C3: the sorted vector `[3, 5, 9]` — an exact hit on `5`
returns index `1`, a line below all entries returns `0`, and a line above all
entries returns the last index `2`. -/
theorem C3_binarySearch_ge_witness :
    binarySearch [3, 5, 9] 5 0 = some 1 ∧
    binarySearch [3, 5, 9] 1 0 = some 0 ∧
    binarySearch [3, 5, 9] 11 0 = some 2 :=
  ⟨(C3_binarySearch_ge [3, 5, 9] 5 (by decide)).2.2.2 1 (by decide),
   (C3_binarySearch_ge [3, 5, 9] 1 (by decide)).2.2.1 (by decide) (by decide),
   (C3_binarySearch_ge [3, 5, 9] 11 (by decide)).2.1 (by decide) (by decide)⟩

/-! ## Caller resolver (`findCaller`; claims C7 and C8) -/

/-- Function `toFileLine`: `"%s,%d" % (filePath, lineNumber)`. -/
def toFileLine (filePath : PyStr) (lineNumber : Int) : PyStr :=
  filePath ++ ',' :: intToChars lineNumber

/-- Function `decodeFileLineSymbol`: split the composite key on `','`; fewer than three
fields give the documented default triple; exactly three give
`[fileName, int(lineNumber), symbol]` (`int` may raise — `none`); more than
three make the tuple unpacking raise `ValueError` (`none`). -/
def decodeFileLineSymbol (fileLineSymbol : PyStr) : Option (PyStr × Int × PyStr) :=
  let splitted := fileLineSymbol.splitOn ','
  if splitted.length < 3 then some (STR_DEFAULT_FILENAME, 0, "None".toList)
  else
    match splitted with
    | [fileName, lineNumber, symbol] =>
      (pyInt lineNumber).map fun n => (fileName, n, symbol)
    | _ => none

/-- The `for macroInfo in macroInfos` loop of one `findCaller` block: decode
each composite key and append the symbols whose extent covers `lineNumber`;
an undecodable key aborts the call (`none`). -/
def filterCovering (endLineNumber lineNumber : Int) : List PyStr → Option (List PyStr)
  | [] => some []
  | info :: rest =>
    match decodeFileLineSymbol info with
    | none => none
    | some (_, startLineNumber, symbol) =>
      match filterCovering endLineNumber lineNumber rest with
      | none => none
      | some r =>
        if startLineNumber ≤ lineNumber ∧ endLineNumber ≥ lineNumber then
          some (symbol :: r)
        else some r

/-- One lookup block of `findCaller` — the macro block and the function block
of the source are verbatim copies of each other, differing only in the map
they read.  `none` = uncaught exception, `some none` = fall through (file
absent, or no covering symbol), `some (some r)` = `return result` with the
nonempty covering list `r`. -/
def endLookup (endMap : FLMap) (filePath : PyStr) (lineNumber : Int) :
    Option (Option (List PyStr)) :=
  match alistGet endMap filePath with
  | none => some none
  | some inner =>
    match binarySearch (inner.map Prod.fst) lineNumber 0 with
    | none => none   -- UnboundLocalError from an empty key vector
    | some idx =>
      if idx > -1 then
        match (inner.map Prod.fst).get? idx.toNat with
        | none => none  -- IndexError: unreachable in GREATER_OR_EQUAL mode
        | some endLineNumber =>
          match alistGet inner endLineNumber with
          | none => none  -- KeyError: unreachable, the key was read from `inner`
          | some macroInfos =>
            match filterCovering endLineNumber lineNumber macroInfos with
            | none => none
            | some result =>
              if result.length > 0 then some (some result) else some none
      else some none

/-- Function `findCaller(filePath, lineNumber, symbol)`: the macro-end block, then the
function-end block, then `return None`.  The `symbol` argument is accepted and
never read — the source shadows it in the tuple unpacking. -/
def findCaller (macroEndMap functionEndMap : FLMap) (filePath : PyStr)
    (lineNumber : Int) (symbol : PyStr) : Option (Option (List PyStr)) :=
  match endLookup macroEndMap filePath lineNumber with
  | none => none
  | some (some result) => some (some result)
  | some none =>
    match endLookup functionEndMap filePath lineNumber with
    | none => none
    | some (some result) => some (some result)
    | some none => some none

/-- Predicate: `endMap` records an extent of `sym` in `filePath` ending at `endLine`
with decoded start `start`." -/
def extentRecorded (endMap : FLMap) (filePath : PyStr) (endLine start : Int)
    (sym : PyStr) : Prop :=
  ∃ inner infos info f', alistGet endMap filePath = some inner ∧
    alistGet inner endLine = some infos ∧ info ∈ infos ∧
    decodeFileLineSymbol info = some (f', start, sym)

/-- Each symbol kept by the filter loop comes from a decoded entry whose
extent covers the line. -/
theorem filterCovering_mem (endLineNumber lineNumber : Int) :
    ∀ (infos : List PyStr) (r : List PyStr),
      filterCovering endLineNumber lineNumber infos = some r →
      ∀ sym ∈ r, ∃ info ∈ infos, ∃ f' start,
        decodeFileLineSymbol info = some (f', start, sym) ∧
        start ≤ lineNumber ∧ lineNumber ≤ endLineNumber := by
  intro infos
  induction infos with
  | nil =>
    intro r h sym hsym
    simp [filterCovering] at h
    subst h
    simp at hsym
  | cons info rest ih =>
    intro r h sym hsym
    unfold filterCovering at h
    cases hd : decodeFileLineSymbol info with
    | none => rw [hd] at h; exact absurd h (by simp)
    | some triple =>
      obtain ⟨f', start, symbol⟩ := triple
      simp only [hd] at h
      cases hr : filterCovering endLineNumber lineNumber rest with
      | none => rw [hr] at h; exact absurd h (by simp)
      | some r' =>
        simp only [hr] at h
        by_cases hcov : start ≤ lineNumber ∧ endLineNumber ≥ lineNumber
        · rw [if_pos hcov] at h
          injection h with h
          subst h
          rcases List.mem_cons.mp hsym with hsym | hsym
          · subst hsym
            exact ⟨info, by simp, f', start, hd, hcov.1, hcov.2⟩
          · obtain ⟨info', hinfo', f'', start', hdec', hb1, hb2⟩ := ih r' hr sym hsym
            exact ⟨info', by simp [hinfo'], f'', start', hdec', hb1, hb2⟩
        · rw [if_neg hcov] at h
          injection h with h
          subst h
          obtain ⟨info', hinfo', f'', start', hdec', hb1, hb2⟩ := ih r' hr sym hsym
          exact ⟨info', by simp [hinfo'], f'', start', hdec', hb1, hb2⟩

/-- A successful `endLookup` only returns symbols with a recorded covering
extent. -/
theorem endLookup_covering (endMap : FLMap) (filePath : PyStr) (lineNumber : Int)
    (r : List PyStr) (h : endLookup endMap filePath lineNumber = some (some r)) :
    ∀ sym ∈ r, ∃ endLine start, extentRecorded endMap filePath endLine start sym ∧
      start ≤ lineNumber ∧ lineNumber ≤ endLine := by
  intro sym hsym
  unfold endLookup at h
  cases hm : alistGet endMap filePath with
  | none => rw [hm] at h; exact absurd h (by simp)
  | some inner =>
    simp only [hm] at h
    cases hb : binarySearch (inner.map Prod.fst) lineNumber 0 with
    | none => simp only [hb] at h; exact absurd h (by simp)
    | some idx =>
      simp only [hb] at h
      by_cases hidx : idx > -1
      · rw [if_pos hidx] at h
        cases hg : (inner.map Prod.fst).get? idx.toNat with
        | none => simp only [hg] at h; exact absurd h (by simp)
        | some endLineNumber =>
          simp only [hg] at h
          cases hi : alistGet inner endLineNumber with
          | none => simp only [hi] at h; exact absurd h (by simp)
          | some macroInfos =>
            simp only [hi] at h
            cases hf : filterCovering endLineNumber lineNumber macroInfos with
            | none => simp only [hf] at h; exact absurd h (by simp)
            | some result =>
              simp only [hf] at h
              by_cases hlen : result.length > 0
              · rw [if_pos hlen] at h
                injection h with h
                injection h with h
                subst h
                obtain ⟨info, hinfo, f', start, hdec, hb1, hb2⟩ :=
                  filterCovering_mem endLineNumber lineNumber macroInfos result hf sym hsym
                exact ⟨endLineNumber, start,
                  ⟨inner, macroInfos, info, f', hm, hi, hinfo, hdec⟩, hb1, hb2⟩
              · rw [if_neg hlen] at h
                exact absurd h (by simp)
      · rw [if_neg hidx] at h
        exact absurd h (by simp)

/-- Claim C7: extent containment.  Every symbol in a list returned by
`findCaller(filePath, lineNumber, symbol)` has a recorded extent — in the
macro-end index or in the function-end index of that file — whose decoded
start line and end-line key satisfy `start ≤ lineNumber ≤ end`. -/
theorem C7_extent_containment (mm fm : FLMap) (filePath : PyStr) (lineNumber : Int)
    (symbolArg : PyStr) (r : List PyStr)
    (h : findCaller mm fm filePath lineNumber symbolArg = some (some r)) :
    ∀ sym ∈ r, ∃ endLine start,
      (extentRecorded mm filePath endLine start sym ∨
        extentRecorded fm filePath endLine start sym) ∧
      start ≤ lineNumber ∧ lineNumber ≤ endLine := by
  intro sym hsym
  unfold findCaller at h
  cases h1 : endLookup mm filePath lineNumber with
  | none => rw [h1] at h; exact absurd h (by simp)
  | some o =>
    rw [h1] at h
    cases o with
    | some result =>
      simp at h
      subst h
      obtain ⟨e, s, hrec, hb1, hb2⟩ := endLookup_covering mm filePath lineNumber result h1 sym hsym
      exact ⟨e, s, Or.inl hrec, hb1, hb2⟩
    | none =>
      cases h2 : endLookup fm filePath lineNumber with
      | none => rw [h2] at h; exact absurd h (by simp)
      | some o2 =>
        rw [h2] at h
        cases o2 with
        | some result =>
          simp at h
          subst h
          obtain ⟨e, s, hrec, hb1, hb2⟩ :=
            endLookup_covering fm filePath lineNumber result h2 sym hsym
          exact ⟨e, s, Or.inr hrec, hb1, hb2⟩
        | none => exact absurd h (by simp)

set_option maxRecDepth 40000 in
/-- Witness for C7: with an empty macro index and a function index recording
`a` with extent 1–10 in `f.c`, resolving line 2 returns `["a"]`, and the
containment conclusion is delivered by the theorem. -/
theorem C7_extent_containment_witness :
    ∃ endLine start,
      (extentRecorded [] "f.c".toList endLine start ['a'] ∨
        extentRecorded [("f.c".toList, [((10 : Int), ["f.c,1,a".toList])])]
          "f.c".toList endLine start ['a']) ∧
      start ≤ (2 : Int) ∧ (2 : Int) ≤ endLine :=
  C7_extent_containment [] [("f.c".toList, [((10 : Int), ["f.c,1,a".toList])])]
    "f.c".toList 2 "g".toList [['a']] (by decide) ['a'] (by decide)

/-- Claim C8: macro precedence in `findCaller`.  (1) When the macro-end lookup
yields a covering list, that list is returned and the function-end index is
never consulted (the result is the same for every function map); (2) when the
macro lookup falls through, the result is exactly the function-end lookup of
the same line; (3) when neither lookup yields a covering extent the caller is
`None`. -/
theorem C8_macro_precedence (mm fm : FLMap) (filePath : PyStr) (lineNumber : Int)
    (symbolArg : PyStr) :
    (∀ r, endLookup mm filePath lineNumber = some (some r) →
      findCaller mm fm filePath lineNumber symbolArg = some (some r) ∧
      ∀ fm' : FLMap, findCaller mm fm' filePath lineNumber symbolArg = some (some r)) ∧
    (endLookup mm filePath lineNumber = some none →
      findCaller mm fm filePath lineNumber symbolArg =
        endLookup fm filePath lineNumber) ∧
    (endLookup mm filePath lineNumber = some none →
      endLookup fm filePath lineNumber = some none →
      findCaller mm fm filePath lineNumber symbolArg = some none) := by
  refine ⟨?_, ?_, ?_⟩
  · intro r h
    constructor
    · unfold findCaller
      rw [h]
    · intro fm'
      unfold findCaller
      rw [h]
  · intro h
    unfold findCaller
    rw [h]
    cases h2 : endLookup fm filePath lineNumber with
    | none => rfl
    | some o => cases o <;> rfl
  · intro h1 h2
    unfold findCaller
    rw [h1, h2]

set_option maxRecDepth 40000 in
/-- Witness for C8: with a macro `M` covering line 11 in `f.c` (extent 10–12)
and a function `main` also covering it (extent 5–20), `findCaller` returns the
macro, for any function map. -/
theorem C8_macro_precedence_witness :
    findCaller [("f.c".toList, [((12 : Int), ["f.c,10,M".toList])])]
      [("f.c".toList, [((20 : Int), ["f.c,5,main".toList])])]
      "f.c".toList 11 "g".toList = some (some [['M']]) :=
  ((C8_macro_precedence [("f.c".toList, [((12 : Int), ["f.c,10,M".toList])])]
      [("f.c".toList, [((20 : Int), ["f.c,5,main".toList])])]
      "f.c".toList 11 "g".toList).1 [['M']] (by decide)).1

/-! ## Tree walker (`findAllCaller`, `buildTree`, `toJsList`;
claims C1, C2, C9)

`findAllCaller` recurses on an explicit `fuel` bound; claim C9 proves that
`fuel` larger than the number of not-yet-traversed referenced symbols never
runs out, which is exactly the termination argument of the source.  The
`for caller in callerList` loop is `expandLoop`, structurally recursive on the
list, taking the depth-`fuel` walker as its `recur` argument. -/

/-- A Python value in a call tree: a sentinel string or a nested dict. -/
inductive PyVal : Type where
  | str (s : PyStr) : PyVal
  | dict (entries : List (PyStr × PyVal)) : PyVal

/-- The database slice consumed by the walker: `self.references`,
`self.macroEndMap` and `self.functionEndMap`. -/
structure DB where
  references : List (PyStr × List (PyStr × List Int))
  macroEndMap : FLMap
  functionEndMap : FLMap

/-- The process-global configuration the walker reads: `NUM_MAX_DEPTH` as the
walker compares it, `BOOL_NO_POSITION` (default `True`: positions ARE
reported), the decision of `matchBlackList` (abstracting the regular
expression engine; an empty blacklist is `fun _ => false`), and the iteration
order CPython's `list(set(...))` produces for the caller set — an order that
depends on the per-process randomised string hash seed, hence a parameter. -/
structure WalkCfg where
  maxDepth : Int
  boolNoPosition : Bool
  blacklist : PyStr → Bool
  pyset : List PyStr → List PyStr

/-- Constant `NUM_MAX_DEPTH = max(min(args.depth, 900), 1)`: the CLI clamp applied to
the configured `--depth` value. -/
def NUM_MAX_DEPTH (depth : Int) : Int := max (min depth 900) 1

/-- The traversal cache `self.traversed`. -/
abbrev Trav := List (PyStr × List PyStr)

/-- Outcome of one walker call: `oom` = the iteration bound ran out (never,
with enough fuel — claim C9), `exc` = a Python exception escaped,
`ok v traversed` = the call returned `v` with the updated cache. -/
inductive WalkOut : Type where
  | oom : WalkOut
  | exc : WalkOut
  | ok (v : PyVal) (traversed : Trav) : WalkOut

/-- Outcome of the caller loop: the accumulated `callerDict` and cache. -/
inductive LoopOut : Type where
  | oom : LoopOut
  | exc : LoopOut
  | ok (callerDict : List (PyStr × PyVal)) (traversed : Trav) : LoopOut

/-- The inner reference loop of `findAllCaller` over one file's line list:
`refPosition[_caller] = (filePath, line)` for each resolved caller
(last write wins) and `callerList += caller`. -/
def collectLines (db : DB) (symbol filePath : PyStr) :
    List Int → List (PyStr × (PyStr × Int)) → List PyStr →
    Option (List (PyStr × (PyStr × Int)) × List PyStr)
  | [], refPosition, callerList => some (refPosition, callerList)
  | lineNumber :: rest, refPosition, callerList =>
    match findCaller db.macroEndMap db.functionEndMap filePath lineNumber symbol with
    | none => none    -- an exception escaped from findCaller
    | some none => collectLines db symbol filePath rest refPosition callerList
    | some (some caller) =>
      collectLines db symbol filePath rest
        (caller.foldl (fun rp c => alistSet rp c (filePath, lineNumber)) refPosition)
        (callerList ++ caller)

/-- The outer reference loop of `findAllCaller`, over the per-file line
lists of `self.references[symbol]`. -/
def collectRefs (db : DB) (symbol : PyStr) :
    List (PyStr × List Int) → List (PyStr × (PyStr × Int)) → List PyStr →
    Option (List (PyStr × (PyStr × Int)) × List PyStr)
  | [], refPosition, callerList => some (refPosition, callerList)
  | (filePath, refLines) :: rest, refPosition, callerList =>
    match collectLines db symbol filePath refLines refPosition callerList with
    | none => none
    | some (refPosition', callerList') =>
      collectRefs db symbol rest refPosition' callerList'

/-- The `for caller in callerList` loop of `findAllCaller`.  `recur` is the
walker at the next fuel level (`findAllCaller cfg db fuel`); the cache
membership test uses the ENCODED caller while the dict key is the DECODED
name, exactly as in the source. -/
def expandLoop (cfg : WalkCfg)
    (recur : Trav → PyStr → Int → WalkOut)
    (refPosition : List (PyStr × (PyStr × Int))) (depth : Int) :
    List PyStr → List (PyStr × PyVal) → Trav → LoopOut
  | [], callerDict, traversed => .ok callerDict traversed
  | caller :: rest, callerDict, traversed =>
    if (alistGet traversed caller).isSome then
      if (alistGet callerDict caller).isNone then
        if cfg.boolNoPosition then
          match alistGet refPosition caller with
          | none => .exc    -- KeyError: refPosition[caller]
          | some fl =>
            expandLoop cfg recur refPosition depth rest
              (alistSet callerDict (decodeSymbol caller)
                (.dict [("callee".toList, .str (toFileLine fl.1 fl.2)),
                        ("caller".toList, .str STR_TRAVERSED)]))
              traversed
        else
          expandLoop cfg recur refPosition depth rest
            (alistSet callerDict (decodeSymbol caller) (.str STR_TRAVERSED)) traversed
      else expandLoop cfg recur refPosition depth rest callerDict traversed
    else
      if cfg.boolNoPosition then
        match alistGet refPosition caller with
        | none => .exc    -- KeyError: refPosition[caller]
        | some fl =>
          match recur traversed caller (depth + 1) with
          | .oom => .oom
          | .exc => .exc
          | .ok v traversed' =>
            expandLoop cfg recur refPosition depth rest
              (alistSet callerDict (decodeSymbol caller)
                (.dict [("callee".toList, .str (toFileLine fl.1 fl.2)),
                        ("caller".toList, v)]))
              traversed'
      else
        match recur traversed caller (depth + 1) with
        | .oom => .oom
        | .exc => .exc
        | .ok v traversed' =>
          expandLoop cfg recur refPosition depth rest
            (alistSet callerDict (decodeSymbol caller) v) traversed'

/-- Function `findAllCaller(symbol, depth)`: depth guard, blacklist, traversal cache,
reference lookup, caller collection, cache insertion BEFORE the recursive
loop, and the empty-dict fallback to `@NoReference`. -/
def findAllCaller (cfg : WalkCfg) (db : DB) :
    Nat → Trav → PyStr → Int → WalkOut
  | 0, _, _, _ => .oom
  | fuel + 1, traversed, symbol, depth =>
    if cfg.maxDepth ≠ -1 ∧ depth ≥ cfg.maxDepth then .ok (.str STR_MAX_DEPTH) traversed
    else if cfg.blacklist symbol then .ok (.str STR_BLACKLISTED) traversed
    else if (alistGet traversed symbol).isSome then .ok (.str STR_TRAVERSED) traversed
    else
      match alistGet db.references symbol with
      | none => .ok (.str STR_NO_REFERENCE) traversed
      | some references =>
        match collectRefs db symbol references [] [] with
        | none => .exc
        | some (refPosition, callerList0) =>
          match expandLoop cfg (findAllCaller cfg db fuel) refPosition depth
              (cfg.pyset callerList0) []
              (alistSet traversed symbol (cfg.pyset callerList0)) with
          | .oom => .oom
          | .exc => .exc
          | .ok callerDict traversed' =>
            if callerDict.length = 0 then .ok (.str STR_NO_REFERENCE) traversed'
            else .ok (.dict callerDict) traversed'

/-- Function `buildTree`: expand every root symbol (digram-encoded) at depth 0; the
traversal cache is shared across roots.  `none` = a run that crashed or ran
out of fuel. -/
def buildTree (cfg : WalkCfg) (db : DB) (fuel : Nat) :
    List PyStr → Trav → List (PyStr × PyVal) → Option (List (PyStr × PyVal))
  | [], _, trees => some trees
  | symbol :: rest, traversed, trees =>
    match findAllCaller cfg db fuel traversed (encodeSymbol symbol) 0 with
    | .oom => none
    | .exc => none
    | .ok v traversed' => buildTree cfg db fuel rest traversed' (alistSet trees symbol v)

/-- The serialisation loop shared by `toJsList` and its nested `flatten`
(their bodies are identical): `'"%s":"%s",'` for string values and
`'"%s":{' ... '},'` for dict values.  The first argument bounds the number of
expansion steps; any bound at least the tree size serialises fully. -/
def flattenEntries : Nat → List (PyStr × PyVal) → PyStr
  | 0, _ => []
  | _ + 1, [] => []
  | fuel + 1, (k, PyVal.str s) :: rest =>
    '"' :: (k ++ '"' :: ':' :: '"' :: (s ++ '"' :: ',' :: flattenEntries fuel rest))
  | fuel + 1, (k, PyVal.dict d) :: rest =>
    '"' :: (k ++ '"' :: ':' :: '\x7b' ::
      (flattenEntries fuel d ++ '\x7d' :: ',' :: flattenEntries fuel rest))

/-- Function `toJsList`: `'{' ... '}'` around the flattened trees. -/
def toJsList (fuel : Nat) (trees : List (PyStr × PyVal)) : PyStr :=
  '\x7b' :: (flattenEntries fuel trees ++ ['\x7d'])

/-- Bounded check that some string VALUE in the tree equals `@ReachMaxDepth`. -/
def hasMaxDepthVal : Nat → PyVal → Bool
  | 0, _ => false
  | _ + 1, .str s => decide (s = STR_MAX_DEPTH)
  | fuel + 1, .dict entries => entries.any fun e => hasMaxDepthVal fuel e.2

/-- Predicate: no string value anywhere in the tree is `@ReachMaxDepth`" (at every
check bound). -/
def NoMD (v : PyVal) : Prop := ∀ cf : Nat, hasMaxDepthVal cf v = false

/-! ### Claim C1: the depth limit and the `-1` sentinel -/

theorem NoMD_str (s : PyStr) (h : s ≠ STR_MAX_DEPTH) : NoMD (.str s) := by
  intro cf
  cases cf with
  | zero => rfl
  | succ n => simpa [hasMaxDepthVal] using h

theorem NoMD_dict (entries : List (PyStr × PyVal)) (h : ∀ e ∈ entries, NoMD e.2) :
    NoMD (.dict entries) := by
  intro cf
  cases cf with
  | zero => rfl
  | succ n =>
    show entries.any (fun e => hasMaxDepthVal n e.2) = false
    rw [List.any_eq_false]
    intro e he
    simp [h e he n]

theorem toFileLine_ne_maxDepth (f : PyStr) (ln : Int) :
    toFileLine f ln ≠ STR_MAX_DEPTH := by
  intro h
  have hc : ',' ∈ toFileLine f ln := by
    unfold toFileLine
    exact List.mem_append.mpr (Or.inr (by simp))
  rw [h] at hc
  revert hc
  decide

/-- If every result of the inner walker is `@ReachMaxDepth`-free, the caller
loop only accumulates `@ReachMaxDepth`-free values. -/
theorem expandLoop_noMD (cfg : WalkCfg) (recur : Trav → PyStr → Int → WalkOut)
    (refPosition : List (PyStr × (PyStr × Int))) (depth : Int)
    (hrec : ∀ tr sym d v tr', recur tr sym d = .ok v tr' → NoMD v) :
    ∀ (ls : List PyStr) (callerDict : List (PyStr × PyVal)) (tr : Trav)
      (d' : List (PyStr × PyVal)) (tr' : Trav),
      (∀ e ∈ callerDict, NoMD e.2) →
      expandLoop cfg recur refPosition depth ls callerDict tr = .ok d' tr' →
      ∀ e ∈ d', NoMD e.2 := by
  intro ls
  induction ls with
  | nil =>
    intro cd tr d' tr' hcd h
    injection h with h1 h2
    subst h1
    exact hcd
  | cons caller rest ih =>
    intro cd tr d' tr' hcd h
    have hwrap : ∀ fl : PyStr × Int, ∀ v : PyVal, NoMD v →
        ∀ e ∈ alistSet cd (decodeSymbol caller)
          (PyVal.dict [("callee".toList, PyVal.str (toFileLine fl.1 fl.2)),
                       ("caller".toList, v)]), NoMD e.2 := by
      intro fl v hv e he
      rcases mem_alistSet _ _ _ _ he with h' | h'
      · exact hcd e h'
      · rw [h']
        apply NoMD_dict
        intro e' he'
        rcases List.mem_cons.mp he' with h'' | h''
        · rw [h'']
          exact NoMD_str _ (toFileLine_ne_maxDepth fl.1 fl.2)
        · simp at h''
          rw [h'']
          exact hv
    have hplain : ∀ v : PyVal, NoMD v →
        ∀ e ∈ alistSet cd (decodeSymbol caller) v, NoMD e.2 := by
      intro v hv e he
      rcases mem_alistSet _ _ _ _ he with h' | h'
      · exact hcd e h'
      · rw [h']
        exact hv
    unfold expandLoop at h
    by_cases h1 : (alistGet tr caller).isSome
    · rw [if_pos h1] at h
      by_cases h2 : (alistGet cd caller).isNone
      · rw [if_pos h2] at h
        by_cases h3 : cfg.boolNoPosition = true
        · rw [if_pos h3] at h
          cases hrp : alistGet refPosition caller with
          | none => rw [hrp] at h; exact absurd h (by simp)
          | some fl =>
            simp only [hrp] at h
            exact ih _ _ d' tr'
              (hwrap fl (PyVal.str STR_TRAVERSED) (NoMD_str _ (by decide))) h
        · rw [if_neg h3] at h
          exact ih _ _ d' tr'
            (hplain (PyVal.str STR_TRAVERSED) (NoMD_str _ (by decide))) h
      · rw [if_neg h2] at h
        exact ih _ _ d' tr' hcd h
    · rw [if_neg h1] at h
      by_cases h3 : cfg.boolNoPosition = true
      · rw [if_pos h3] at h
        cases hrp : alistGet refPosition caller with
        | none => rw [hrp] at h; exact absurd h (by simp)
        | some fl =>
          simp only [hrp] at h
          cases hr : recur tr caller (depth + 1) with
          | oom => rw [hr] at h; exact absurd h (by simp)
          | exc => rw [hr] at h; exact absurd h (by simp)
          | ok v trv =>
            simp only [hr] at h
            exact ih _ _ d' tr' (hwrap fl v (hrec _ _ _ _ _ hr)) h
      · rw [if_neg h3] at h
        cases hr : recur tr caller (depth + 1) with
        | oom => rw [hr] at h; exact absurd h (by simp)
        | exc => rw [hr] at h; exact absurd h (by simp)
        | ok v trv =>
          simp only [hr] at h
          exact ih _ _ d' tr' (hplain v (hrec _ _ _ _ _ hr)) h

/-- With `NUM_MAX_DEPTH = -1` the walker never produces `@ReachMaxDepth`
anywhere in its result, at any depth. -/
theorem findAllCaller_noMD (cfg : WalkCfg) (db : DB) (hneg : cfg.maxDepth = -1) :
    ∀ (fuel : Nat) (tr : Trav) (sym : PyStr) (depth : Int) (v : PyVal) (tr' : Trav),
      findAllCaller cfg db fuel tr sym depth = .ok v tr' → NoMD v := by
  intro fuel
  induction fuel with
  | zero =>
    intro tr sym depth v tr' h
    exact absurd h (by simp [findAllCaller])
  | succ f ih =>
    intro tr sym depth v tr' h
    unfold findAllCaller at h
    have hguard : ¬ (cfg.maxDepth ≠ -1 ∧ depth ≥ cfg.maxDepth) := by simp [hneg]
    rw [if_neg hguard] at h
    by_cases hb : cfg.blacklist sym = true
    · rw [if_pos hb] at h
      injection h with h1 h2
      rw [← h1]
      exact NoMD_str _ (by decide)
    · rw [if_neg hb] at h
      by_cases ht : (alistGet tr sym).isSome
      · rw [if_pos ht] at h
        injection h with h1 h2
        rw [← h1]
        exact NoMD_str _ (by decide)
      · rw [if_neg ht] at h
        cases hrf : alistGet db.references sym with
        | none =>
          rw [hrf] at h
          injection h with h1 h2
          rw [← h1]
          exact NoMD_str _ (by decide)
        | some references =>
          simp only [hrf] at h
          cases hc : collectRefs db sym references [] [] with
          | none => rw [hc] at h; exact absurd h (by simp)
          | some pr =>
            obtain ⟨refPosition, callerList0⟩ := pr
            simp only [hc] at h
            cases hl : expandLoop cfg (findAllCaller cfg db f) refPosition depth
                (cfg.pyset callerList0) []
                (alistSet tr sym (cfg.pyset callerList0)) with
            | oom => rw [hl] at h; exact absurd h (by simp)
            | exc => rw [hl] at h; exact absurd h (by simp)
            | ok callerDict traversed' =>
              simp only [hl] at h
              have hnomd : ∀ e ∈ callerDict, NoMD e.2 :=
                expandLoop_noMD cfg _ refPosition depth
                  (fun tr sym d v tr' hr => ih tr sym d v tr' hr)
                  (cfg.pyset callerList0) [] _ callerDict traversed' (by simp) hl
              by_cases hlen : callerDict.length = 0
              · rw [if_pos hlen] at h
                injection h with h1 h2
                rw [← h1]
                exact NoMD_str _ (by decide)
              · rw [if_neg hlen] at h
                injection h with h1 h2
                rw [← h1]
                exact NoMD_dict _ hnomd

/-- One CPython-realisable order for `list(set(...))` over strings: first
occurrences.  The actual order is hash-seed dependent — see claim C2. -/
def pyListSet (l : List PyStr) : List PyStr :=
  l.foldl (fun acc a => if a ∈ acc then acc else acc ++ [a]) []

/-- The walker database of the running example: `g` is referenced at
`f.c:2`, which both `a` and `b` (extents 1–10 in `f.c`) cover. -/
def cexDb : DB :=
  { references := [("g".toList, [("f.c".toList, [2])])],
    macroEndMap := [],
    functionEndMap :=
      [("f.c".toList, [((10 : Int), ["f.c,1,a".toList, "f.c,1,b".toList])])] }

/-- The configuration produced by `--depth -1`: the CLI clamp turns `-1` into
`NUM_MAX_DEPTH (-1) = 1` before the walker ever sees it. -/
def cfgNeg : WalkCfg :=
  { maxDepth := NUM_MAX_DEPTH (-1), boolNoPosition := false,
    blacklist := fun _ => false, pyset := pyListSet }

set_option maxRecDepth 40000 in
/-- Claim C1, counterexample.  Configuring `max_depth = -1` does NOT disable
the depth limit: `NUM_MAX_DEPTH = max(min(-1, 900), 1) = 1`, so the walker's
`-1 disables` branch is dead code for every configured value, and the tree for
root `g` under the configured `-1` already contains `@ReachMaxDepth` at
depth 1. -/
theorem C1_counterexample :
    NUM_MAX_DEPTH (-1) = 1 ∧
    (match findAllCaller cfgNeg cexDb 3 [] "g".toList 0 with
      | .ok v _ => hasMaxDepthVal 5 v
      | _ => false) = true := by
  exact ⟨by decide, by decide⟩

/-- Claim C1 (amended): the WALKER treats `NUM_MAX_DEPTH = -1` as "no limit"
(no `@ReachMaxDepth` anywhere in any result) and, for any other value,
returns `@ReachMaxDepth` as soon as `depth ≥ NUM_MAX_DEPTH`; but the CLI
clamp maps EVERY configured value — including `-1` — into `[1, 900]`, sending
`-1` to `1`, so configuring `-1` does not disable the limit (see the
counterexample). -/
theorem C1_depth_limit :
    (∀ (cfg : WalkCfg) (db : DB), cfg.maxDepth = -1 →
      ∀ (fuel : Nat) (tr : Trav) (sym : PyStr) (depth : Int) (v : PyVal) (tr' : Trav),
        findAllCaller cfg db fuel tr sym depth = .ok v tr' → NoMD v) ∧
    (∀ d : Int, 1 ≤ NUM_MAX_DEPTH d ∧ NUM_MAX_DEPTH d ≤ 900) ∧
    NUM_MAX_DEPTH (-1) = 1 ∧
    (∀ (cfg : WalkCfg) (db : DB) (fuel : Nat) (tr : Trav) (sym : PyStr) (depth : Int),
      cfg.maxDepth ≠ -1 → depth ≥ cfg.maxDepth →
      findAllCaller cfg db (fuel + 1) tr sym depth = .ok (.str STR_MAX_DEPTH) tr) := by
  refine ⟨?_, ?_, by decide, ?_⟩
  · intro cfg db hneg fuel tr sym depth v tr' h
    exact findAllCaller_noMD cfg db hneg fuel tr sym depth v tr' h
  · intro d
    unfold NUM_MAX_DEPTH
    omega
  · intro cfg db fuel tr sym depth h1 h2
    unfold findAllCaller
    rw [if_pos ⟨h1, h2⟩]

set_option maxRecDepth 40000 in
/-- Witness for C1: with `maxDepth = -1` the concrete run on `cexDb` returns a
tree, and the theorem certifies it free of `@ReachMaxDepth`; the depth-guard
branch fires at a concrete limit. -/
theorem C1_depth_limit_witness :
    hasMaxDepthVal 5 (PyVal.dict
      [("a".toList, PyVal.str STR_NO_REFERENCE),
       ("b".toList, PyVal.str STR_NO_REFERENCE)]) = false ∧
    findAllCaller { cfgNeg with maxDepth := 1 } cexDb 1 [] "g".toList 5 =
      .ok (.str STR_MAX_DEPTH) [] := by
  constructor
  · exact C1_depth_limit.1 { cfgNeg with maxDepth := -1 } cexDb rfl 3 [] "g".toList 0
      (PyVal.dict [("a".toList, PyVal.str STR_NO_REFERENCE),
                   ("b".toList, PyVal.str STR_NO_REFERENCE)])
      [("g".toList, ["a".toList, "b".toList])] (by rfl) 5
  · exact C1_depth_limit.2.2.2 { cfgNeg with maxDepth := 1 } cexDb 0 [] "g".toList 5
      (by norm_num) (by norm_num)

/-! ### Claim C9: cycle termination -/

/-- The number of referenced-symbol occurrences not yet in the traversal
cache: the decreasing measure of the walk. -/
def muRefs (db : DB) (tr : Trav) : Nat :=
  ((db.references.map Prod.fst).filter fun s => (alistGet tr s).isNone).length

theorem countP_lt_of_witness {α : Type} (l : List α) (p q : α → Bool)
    (hpq : ∀ a, p a = true → q a = true) (a₀ : α) (ha : a₀ ∈ l)
    (hq : q a₀ = true) (hp : p a₀ = false) : l.countP p < l.countP q := by
  induction l with
  | nil => simp at ha
  | cons b rest ih =>
    rw [List.countP_cons, List.countP_cons]
    have hle : rest.countP p ≤ rest.countP q :=
      List.countP_mono_left fun a _ hpa => hpq a hpa
    rcases List.mem_cons.mp ha with h | h
    · subst h
      rw [hp, hq]
      simp only [Bool.false_eq_true, if_false, if_true]
      omega
    · have := ih h
      have hb : (if p b then 1 else 0) ≤ (if q b then 1 else 0) := by
        by_cases hpb : p b = true
        · simp [hpb, hpq b hpb]
        · simp [hpb]
      omega

theorem muRefs_mono (db : DB) (tr tr' : Trav)
    (h : ∀ s, (alistGet tr s).isSome → (alistGet tr' s).isSome) :
    muRefs db tr' ≤ muRefs db tr := by
  unfold muRefs
  rw [← List.countP_eq_length_filter, ← List.countP_eq_length_filter]
  apply List.countP_mono_left
  intro a _ hp
  cases hk : alistGet tr a with
  | none => simp
  | some v =>
    exfalso
    have := h a (by simp [hk])
    rw [Option.isNone_iff_eq_none] at hp
    rw [hp] at this
    simp at this

theorem muRefs_strict (db : DB) (tr : Trav) (sym : PyStr) (cl : List PyStr)
    (hsym : (alistGet db.references sym).isSome)
    (hnot : ¬ (alistGet tr sym).isSome) :
    muRefs db (alistSet tr sym cl) < muRefs db tr := by
  unfold muRefs
  rw [← List.countP_eq_length_filter, ← List.countP_eq_length_filter]
  apply countP_lt_of_witness _ _ _ ?_ sym ?_ ?_ ?_
  · intro a hp
    by_cases ha : a = sym
    · subst ha
      simpa using hnot
    · rwa [alistGet_set_ne _ _ _ _ ha] at hp
  · rw [Option.isSome_iff_exists] at hsym
    obtain ⟨v, hv⟩ := hsym
    exact List.mem_map.mpr ⟨_, alistGet_some_mem _ _ _ hv, rfl⟩
  · simpa using hnot
  · rw [alistGet_set_self]
    rfl

/-- The caller loop only ever grows the traversal cache (given that the inner
walker does). -/
theorem expandLoop_mono (cfg : WalkCfg) (recur : Trav → PyStr → Int → WalkOut)
    (refPosition : List (PyStr × (PyStr × Int))) (depth : Int)
    (hrec : ∀ tr sym d v tr', recur tr sym d = .ok v tr' →
      ∀ s, (alistGet tr s).isSome → (alistGet tr' s).isSome) :
    ∀ (ls : List PyStr) (cd : List (PyStr × PyVal)) (tr : Trav)
      (d' : List (PyStr × PyVal)) (tr' : Trav),
      expandLoop cfg recur refPosition depth ls cd tr = .ok d' tr' →
      ∀ s, (alistGet tr s).isSome → (alistGet tr' s).isSome := by
  intro ls
  induction ls with
  | nil =>
    intro cd tr d' tr' h s hs
    injection h with h1 h2
    subst h2
    exact hs
  | cons caller rest ih =>
    intro cd tr d' tr' h s hs
    unfold expandLoop at h
    by_cases h1 : (alistGet tr caller).isSome
    · rw [if_pos h1] at h
      by_cases h2 : (alistGet cd caller).isNone
      · rw [if_pos h2] at h
        by_cases h3 : cfg.boolNoPosition = true
        · rw [if_pos h3] at h
          cases hrp : alistGet refPosition caller with
          | none => rw [hrp] at h; exact absurd h (by simp)
          | some fl =>
            simp only [hrp] at h
            exact ih _ _ d' tr' h s hs
        · rw [if_neg h3] at h
          exact ih _ _ d' tr' h s hs
      · rw [if_neg h2] at h
        exact ih _ _ d' tr' h s hs
    · rw [if_neg h1] at h
      by_cases h3 : cfg.boolNoPosition = true
      · rw [if_pos h3] at h
        cases hrp : alistGet refPosition caller with
        | none => rw [hrp] at h; exact absurd h (by simp)
        | some fl =>
          simp only [hrp] at h
          cases hr : recur tr caller (depth + 1) with
          | oom => rw [hr] at h; exact absurd h (by simp)
          | exc => rw [hr] at h; exact absurd h (by simp)
          | ok v trv =>
            simp only [hr] at h
            exact ih _ _ d' tr' h s (hrec _ _ _ _ _ hr s hs)
      · rw [if_neg h3] at h
        cases hr : recur tr caller (depth + 1) with
        | oom => rw [hr] at h; exact absurd h (by simp)
        | exc => rw [hr] at h; exact absurd h (by simp)
        | ok v trv =>
          simp only [hr] at h
          exact ih _ _ d' tr' h s (hrec _ _ _ _ _ hr s hs)

/-- The walker only ever grows the traversal cache. -/
theorem findAllCaller_mono (cfg : WalkCfg) (db : DB) :
    ∀ (fuel : Nat) (tr : Trav) (sym : PyStr) (depth : Int) (v : PyVal) (tr' : Trav),
      findAllCaller cfg db fuel tr sym depth = .ok v tr' →
      ∀ s, (alistGet tr s).isSome → (alistGet tr' s).isSome := by
  intro fuel
  induction fuel with
  | zero =>
    intro tr sym depth v tr' h
    exact absurd h (by simp [findAllCaller])
  | succ f ih =>
    intro tr sym depth v tr' h s hs
    unfold findAllCaller at h
    by_cases hg : cfg.maxDepth ≠ -1 ∧ depth ≥ cfg.maxDepth
    · rw [if_pos hg] at h
      injection h with h1 h2
      subst h2
      exact hs
    · rw [if_neg hg] at h
      by_cases hb : cfg.blacklist sym = true
      · rw [if_pos hb] at h
        injection h with h1 h2
        subst h2
        exact hs
      · rw [if_neg hb] at h
        by_cases ht : (alistGet tr sym).isSome
        · rw [if_pos ht] at h
          injection h with h1 h2
          subst h2
          exact hs
        · rw [if_neg ht] at h
          cases hrf : alistGet db.references sym with
          | none =>
            rw [hrf] at h
            injection h with h1 h2
            subst h2
            exact hs
          | some references =>
            simp only [hrf] at h
            cases hc : collectRefs db sym references [] [] with
            | none => rw [hc] at h; exact absurd h (by simp)
            | some pr =>
              obtain ⟨refPosition, callerList0⟩ := pr
              simp only [hc] at h
              cases hl : expandLoop cfg (findAllCaller cfg db f) refPosition depth
                  (cfg.pyset callerList0) []
                  (alistSet tr sym (cfg.pyset callerList0)) with
              | oom => rw [hl] at h; exact absurd h (by simp)
              | exc => rw [hl] at h; exact absurd h (by simp)
              | ok callerDict traversed' =>
                simp only [hl] at h
                have hins : (alistGet (alistSet tr sym (cfg.pyset callerList0)) s).isSome :=
                  alistGet_set_isSome _ _ _ _ hs
                have hkeep := expandLoop_mono cfg _ refPosition depth
                  (fun tr sym d v tr' hr => ih tr sym d v tr' hr)
                  (cfg.pyset callerList0) [] _ callerDict traversed' hl s hins
                by_cases hlen : callerDict.length = 0
                · rw [if_pos hlen] at h
                  injection h with h1 h2
                  subst h2
                  exact hkeep
                · rw [if_neg hlen] at h
                  injection h with h1 h2
                  subst h2
                  exact hkeep

/-- The caller loop never exhausts the fuel bound (given that the inner
walker does not, below the measure bound, and only grows the cache). -/
theorem expandLoop_no_oom (cfg : WalkCfg) (db : DB)
    (recur : Trav → PyStr → Int → WalkOut)
    (refPosition : List (PyStr × (PyStr × Int))) (depth : Int) (bound : Nat)
    (hmono : ∀ tr sym d v tr', recur tr sym d = .ok v tr' →
      ∀ s, (alistGet tr s).isSome → (alistGet tr' s).isSome)
    (hno : ∀ tr sym d, muRefs db tr < bound → recur tr sym d ≠ .oom) :
    ∀ (ls : List PyStr) (cd : List (PyStr × PyVal)) (tr : Trav),
      muRefs db tr < bound →
      expandLoop cfg recur refPosition depth ls cd tr ≠ .oom := by
  intro ls
  induction ls with
  | nil =>
    intro cd tr hμ
    simp [expandLoop]
  | cons caller rest ih =>
    intro cd tr hμ
    unfold expandLoop
    by_cases h1 : (alistGet tr caller).isSome
    · rw [if_pos h1]
      by_cases h2 : (alistGet cd caller).isNone
      · rw [if_pos h2]
        by_cases h3 : cfg.boolNoPosition = true
        · rw [if_pos h3]
          cases hrp : alistGet refPosition caller with
          | none => simp
          | some fl => exact ih _ tr hμ
        · rw [if_neg h3]
          exact ih _ tr hμ
      · rw [if_neg h2]
        exact ih _ tr hμ
    · rw [if_neg h1]
      by_cases h3 : cfg.boolNoPosition = true
      · rw [if_pos h3]
        cases hrp : alistGet refPosition caller with
        | none => simp
        | some fl =>
          cases hr : recur tr caller (depth + 1) with
          | oom => exact absurd hr (hno tr caller (depth + 1) hμ)
          | exc => simp
          | ok v trv =>
            have hμ' : muRefs db trv < bound :=
              lt_of_le_of_lt (muRefs_mono db tr trv (hmono _ _ _ _ _ hr)) hμ
            exact ih _ trv hμ'
      · rw [if_neg h3]
        cases hr : recur tr caller (depth + 1) with
        | oom => exact absurd hr (hno tr caller (depth + 1) hμ)
        | exc => simp
        | ok v trv =>
          have hμ' : muRefs db trv < bound :=
            lt_of_le_of_lt (muRefs_mono db tr trv (hmono _ _ _ _ _ hr)) hμ
          exact ih _ trv hμ'

/-- Fuel adequacy: with fuel above the measure, the walker never runs out —
the termination theorem of `findAllCaller`. -/
theorem findAllCaller_no_oom (cfg : WalkCfg) (db : DB) :
    ∀ (fuel : Nat) (tr : Trav) (sym : PyStr) (depth : Int),
      muRefs db tr < fuel → findAllCaller cfg db fuel tr sym depth ≠ .oom := by
  intro fuel
  induction fuel with
  | zero => intro tr sym depth h; omega
  | succ f ih =>
    intro tr sym depth hμ
    unfold findAllCaller
    by_cases hg : cfg.maxDepth ≠ -1 ∧ depth ≥ cfg.maxDepth
    · rw [if_pos hg]; simp
    · rw [if_neg hg]
      by_cases hb : cfg.blacklist sym = true
      · rw [if_pos hb]; simp
      · rw [if_neg hb]
        by_cases ht : (alistGet tr sym).isSome
        · rw [if_pos ht]; simp
        · rw [if_neg ht]
          cases hrf : alistGet db.references sym with
          | none => simp [hrf]
          | some references =>
            simp only [hrf]
            cases hc : collectRefs db sym references [] [] with
            | none => simp [hc]
            | some pr =>
              obtain ⟨refPosition, callerList0⟩ := pr
              simp only [hc]
              have hstrict : muRefs db (alistSet tr sym (cfg.pyset callerList0)) <
                  muRefs db tr :=
                muRefs_strict db tr sym _ (by simp [hrf]) ht
              have hlt : muRefs db (alistSet tr sym (cfg.pyset callerList0)) < f := by
                omega
              cases hl : expandLoop cfg (findAllCaller cfg db f) refPosition depth
                  (cfg.pyset callerList0) []
                  (alistSet tr sym (cfg.pyset callerList0)) with
              | oom =>
                exact absurd hl (expandLoop_no_oom cfg db _ refPosition depth f
                  (fun tr sym d v tr' hr => findAllCaller_mono cfg db f tr sym d v tr' hr)
                  (fun tr sym d hμ' => ih tr sym d hμ') _ [] _ hlt)
              | exc => simp [hl]
              | ok callerDict traversed' =>
                simp only [hl]
                by_cases hlen : callerDict.length = 0
                · rw [if_pos hlen]; simp
                · rw [if_neg hlen]; simp

/-- Claim C9: cycle termination.  (1) `findAllCaller` terminates on every
finite reference database: any fuel above the number of untraversed
referenced symbols is never exhausted — in particular `muRefs db [] + 1`
suffices for `findAllCaller(root, 0)` (the recursion depth is bounded because
the caller set is cached under `symbol` BEFORE recursing); (2) a symbol
already in the cache is immediately emitted as the `@Traversed` sentinel,
without descending and without touching the cache; (3) once a symbol has been
expanded its cache entry persists in the returned cache, so it is expanded as
at most one branch. -/
theorem C9_cycle_termination :
    (∀ (cfg : WalkCfg) (db : DB) (fuel : Nat) (tr : Trav) (sym : PyStr) (depth : Int),
      muRefs db tr < fuel → findAllCaller cfg db fuel tr sym depth ≠ .oom) ∧
    (∀ (cfg : WalkCfg) (db : DB) (sym : PyStr),
      findAllCaller cfg db (muRefs db [] + 1) [] sym 0 ≠ .oom) ∧
    (∀ (cfg : WalkCfg) (db : DB) (fuel : Nat) (tr : Trav) (sym : PyStr) (depth : Int),
      ¬ (cfg.maxDepth ≠ -1 ∧ depth ≥ cfg.maxDepth) → cfg.blacklist sym = false →
      (alistGet tr sym).isSome →
      findAllCaller cfg db (fuel + 1) tr sym depth = .ok (.str STR_TRAVERSED) tr) ∧
    (∀ (cfg : WalkCfg) (db : DB) (fuel : Nat) (tr : Trav) (sym : PyStr) (depth : Int)
      (v : PyVal) (tr' : Trav),
      ¬ (alistGet tr sym).isSome → (alistGet db.references sym).isSome →
      ¬ (cfg.maxDepth ≠ -1 ∧ depth ≥ cfg.maxDepth) → cfg.blacklist sym = false →
      findAllCaller cfg db (fuel + 1) tr sym depth = .ok v tr' →
      (alistGet tr' sym).isSome) := by
  refine ⟨findAllCaller_no_oom, ?_, ?_, ?_⟩
  · intro cfg db sym
    exact findAllCaller_no_oom cfg db (muRefs db [] + 1) [] sym 0 (by omega)
  · intro cfg db fuel tr sym depth hg hb ht
    unfold findAllCaller
    rw [if_neg hg, if_neg (by simp [hb]), if_pos ht]
  · intro cfg db fuel tr sym depth v tr' ht hrf hg hb h
    unfold findAllCaller at h
    rw [if_neg hg, if_neg (by simp [hb]), if_neg ht] at h
    rw [Option.isSome_iff_exists] at hrf
    obtain ⟨references, hrefs⟩ := hrf
    simp only [hrefs] at h
    cases hc : collectRefs db sym references [] [] with
    | none => rw [hc] at h; exact absurd h (by simp)
    | some pr =>
      obtain ⟨refPosition, callerList0⟩ := pr
      simp only [hc] at h
      cases hl : expandLoop cfg (findAllCaller cfg db fuel) refPosition depth
          (cfg.pyset callerList0) []
          (alistSet tr sym (cfg.pyset callerList0)) with
      | oom => rw [hl] at h; exact absurd h (by simp)
      | exc => rw [hl] at h; exact absurd h (by simp)
      | ok callerDict traversed' =>
        simp only [hl] at h
        have hins : (alistGet (alistSet tr sym (cfg.pyset callerList0)) sym).isSome := by
          rw [alistGet_set_self]
          rfl
        have hkeep := expandLoop_mono cfg _ refPosition depth
          (fun tr sym d v tr' hr => findAllCaller_mono cfg db fuel tr sym d v tr' hr)
          (cfg.pyset callerList0) [] _ callerDict traversed' hl sym hins
        by_cases hlen : callerDict.length = 0
        · rw [if_pos hlen] at h
          injection h with h1 h2
          subst h2
          exact hkeep
        · rw [if_neg hlen] at h
          injection h with h1 h2
          subst h2
          exact hkeep

/-- The self-recursive database: `g`'s only reference site is covered by `g`
itself. -/
def cycDb : DB :=
  { references := [("g".toList, [("f.c".toList, [2])])],
    macroEndMap := [],
    functionEndMap := [("f.c".toList, [((10 : Int), ["f.c,1,g".toList])])] }

set_option maxRecDepth 40000 in
/-- Witness for C9: on the self-recursive database the walk from `g` with
fuel `muRefs + 1 = 2` terminates (does not run out of fuel). -/
theorem C9_cycle_termination_witness :
    findAllCaller cfgNeg cycDb 2 [] "g".toList 0 ≠ WalkOut.oom :=
  C9_cycle_termination.1 cfgNeg cycDb 2 [] "g".toList 0 (by decide)

/-! ### Claim C2: determinism of the serialised output -/

theorem foldl_dedup_mem :
    ∀ (l acc : List PyStr) (s : PyStr),
      (s ∈ l.foldl (fun acc a => if a ∈ acc then acc else acc ++ [a]) acc) ↔
        s ∈ acc ∨ s ∈ l := by
  intro l
  induction l with
  | nil => intro acc s; simp
  | cons a rest ih =>
    intro acc s
    rw [List.foldl_cons]
    by_cases ha : a ∈ acc
    · rw [if_pos ha, ih]
      constructor
      · rintro (h | h)
        · exact Or.inl h
        · exact Or.inr (List.mem_cons_of_mem _ h)
      · rintro (h | h)
        · exact Or.inl h
        · rcases List.mem_cons.mp h with h | h
          · exact Or.inl (h ▸ ha)
          · exact Or.inr h
    · rw [if_neg ha, ih]
      simp [List.mem_append, or_assoc]

theorem foldl_dedup_nodup :
    ∀ (l acc : List PyStr), acc.Nodup →
      (l.foldl (fun acc a => if a ∈ acc then acc else acc ++ [a]) acc).Nodup := by
  intro l
  induction l with
  | nil => intro acc h; simpa using h
  | cons a rest ih =>
    intro acc hacc
    rw [List.foldl_cons]
    by_cases ha : a ∈ acc
    · rw [if_pos ha]
      exact ih acc hacc
    · rw [if_neg ha]
      apply ih
      rw [List.nodup_append]
      refine ⟨hacc, List.nodup_singleton a, fun x hx hxa => ha ?_⟩
      simp at hxa
      rw [hxa] at hx
      exact hx

/-- Another CPython-realisable `list(set(...))` enumeration: the reverse of
the first-occurrence order.  CPython's set iteration order over strings is
determined by the randomised per-process hash seed, so different runs may see
different enumerations of the same set. -/
def pyListSetRev (l : List PyStr) : List PyStr := (pyListSet l).reverse

/-- A run configuration with the given set-enumeration oracle (default depth
50, empty blacklist, positions off). -/
def cfgRun (ps : List PyStr → List PyStr) : WalkCfg :=
  { maxDepth := NUM_MAX_DEPTH 50, boolNoPosition := false,
    blacklist := fun _ => false, pyset := ps }

/-- One full run on `cexDb`: build the tree for root `g`, serialise it. -/
def C2serialize (ps : List PyStr → List PyStr) : Option PyStr :=
  (buildTree (cfgRun ps) cexDb 3 ["g".toList] [] []).map (toJsList 10)

set_option maxRecDepth 100000 in
/-- Claim C2: the serialised output is NOT a function of the database and
configuration alone.  Both enumerations below are legitimate behaviours of
CPython's `list(set(...))` — each returns the set's elements exactly once
(proved for all inputs) — yet on the same database and configuration the two
runs serialise to different byte strings: the caller edges of `g` come out as
`a, b` in one run and `b, a` in the other.  The source converts the caller
set with a bare `list(set(...))` and never sorts, so the emitted edge order
depends on the per-process string hash seed. -/
theorem C2_set_order_dependence :
    (∀ l : List PyStr, (pyListSet l).Nodup ∧ ∀ s, s ∈ pyListSet l ↔ s ∈ l) ∧
    (∀ l : List PyStr, (pyListSetRev l).Nodup ∧ ∀ s, s ∈ pyListSetRev l ↔ s ∈ l) ∧
    C2serialize pyListSet ≠ C2serialize pyListSetRev := by
  refine ⟨?_, ?_, by decide⟩
  · intro l
    refine ⟨foldl_dedup_nodup l [] (List.nodup_nil), fun s => ?_⟩
    rw [pyListSet, foldl_dedup_mem]
    simp
  · intro l
    refine ⟨List.nodup_reverse.mpr (foldl_dedup_nodup l [] (List.nodup_nil)), fun s => ?_⟩
    unfold pyListSetRev
    rw [List.mem_reverse, pyListSet, foldl_dedup_mem]
    simp

end CallTree


